import Mathlib

/-!
# searchall: branch priority, multi-branch aggregation, tag filters, search loop

A shallow embedding of the Go sources `multi_branch_loader.go` and `main.go`,
together with the part of Go's standard library they call: package `sort`
(`sort.Slice`, the pattern-defeating quicksort of go1.19 and later, found here
under `GoSort`) and package `strings` (`ToLower`, `TrimSpace`, `Contains`, on
valid UTF-8 strings). The external commands (`git`, the YAML parser, the reads
on the terminal) are parameters of the model.

Slices that are mutated in place are modelled as lists, read with `read` and
written with `swap`, together with the bounds `a`, `b` the Go code passes around; every
loop is a structurally recursive function whose first argument counts the
remaining iterations.
-/

set_option autoImplicit false

namespace GoSort

variable {α : Type} [Inhabited α]

/-- The element `data[i]` of a slice (indices outside the slice read the default
value; the Go code never reads there). -/
def read (data : List α) (i : Nat) : α := data.getD i default

/-- The `Swap(i, j)` of `reflectlite.Swapper`: exchanges the elements at `i` and `j`. -/
def swap (data : List α) (i j : Nat) : List α :=
  (data.set i (read data j)).set j (read data i)

/-- Hint returned by `choosePivot_func` (Go type `sortedHint`). -/
inductive sortedHint
  | unknownHint
  | increasingHint
  | decreasingHint
  deriving DecidableEq, Repr

/-- Inner loop of `insertionSort_func`:
`for j := i; j > a && data.Less(j, j-1); j-- { data.Swap(j, j-1) }`. -/
def insertionInner (less : α → α → Bool) (a : Nat) : Nat → List α → List α
  | 0, data => data
  | j + 1, data =>
    if j + 1 > a && less (read data (j + 1)) (read data j) then
      insertionInner less a j (swap data (j + 1) j)
    else data

/-- Outer loop of `insertionSort_func`: `for i := a + 1; i < b; i++`,
with `n` the number of iterations that remain. -/
def insertionOuter (less : α → α → Bool) (a b : Nat) : Nat → Nat → List α → List α
  | 0, _, data => data
  | n + 1, i, data =>
    if i < b then insertionOuter less a b n (i + 1) (insertionInner less a i data) else data

/-- Go `insertionSort_func(data, a, b)`: sorts `data[a:b]` by insertion. -/
def insertionSortLessFunc (less : α → α → Bool) (data : List α) (a b : Nat) : List α :=
  insertionOuter less a b (b - (a + 1)) (a + 1) data

/-- Loop of Go `siftDown_func(data, lo, hi, first)`, started at `root`. -/
def siftDownLoop (less : α → α → Bool) (hi first : Nat) : Nat → Nat → List α → List α
  | 0, _, data => data
  | n + 1, root, data =>
    let child := 2 * root + 1
    if child ≥ hi then data
    else
      let child :=
        if child + 1 < hi && less (read data (first + child)) (read data (first + child + 1)) then child + 1
        else child
      if !less (read data (first + root)) (read data (first + child)) then data
      else siftDownLoop less hi first n child (swap data (first + root) (first + child))

/-- Go `siftDown_func(data, lo, hi, first)`. -/
def siftDownLessFunc (less : α → α → Bool) (data : List α) (lo hi first : Nat) : List α :=
  siftDownLoop less hi first hi lo data

/-- First loop of `heapSort_func`: `for i := (hi - 1) / 2; i >= 0; i--`,
run for the indices `n - 1, ..., 0`. -/
def heapBuild (less : α → α → Bool) (hi first : Nat) : Nat → List α → List α
  | 0, data => data
  | i + 1, data => heapBuild less hi first i (siftDownLessFunc less data i hi first)

/-- Second loop of `heapSort_func`: `for i := hi - 1; i >= 0; i--`,
run for the indices `n - 1, ..., 0`. -/
def heapPop (less : α → α → Bool) (first : Nat) : Nat → List α → List α
  | 0, data => data
  | i + 1, data =>
    heapPop less first i (siftDownLessFunc less (swap data first (first + i)) 0 i first)

/-- Go `heapSort_func(data, a, b)`. -/
def heapSortLessFunc (less : α → α → Bool) (data : List α) (a b : Nat) : List α :=
  let first := a
  let hi := b - a
  let data := heapBuild less hi first ((hi - 1) / 2 + 1) data
  heapPop less first hi data

/-- The loop `for i <= j && p(i) { i++ }`; returns the final `i`. -/
def scanUp (p : Nat → Bool) : Nat → Nat → Nat → Nat
  | 0, i, _ => i
  | n + 1, i, j => if i ≤ j && p i then scanUp p n (i + 1) j else i

/-- The loop `for i <= j && p(j) { j-- }`; returns the final `j`. -/
def scanDown (p : Nat → Bool) : Nat → Nat → Nat → Nat
  | 0, _, j => j
  | n + 1, i, j => if i ≤ j && p j then scanDown p n i (j - 1) else j

/-- Main `for` loop of `partition_func`; returns the data and the final `j`. -/
def partitionLoop (less : α → α → Bool) (a : Nat) :
    Nat → List α → Nat → Nat → List α × Nat
  | 0, data, _, j => (data, j)
  | n + 1, data, i, j =>
    let i := scanUp (fun k => less (read data k) (read data a)) (j + 1 - i) i j
    let j := scanDown (fun k => !less (read data k) (read data a)) (j + 1 - i) i j
    if i > j then (data, j)
    else partitionLoop less a n (swap data i j) (i + 1) (j - 1)

/-- Go `partition_func(data, a, b, pivot)`: returns the data, the new pivot
index and `alreadyPartitioned`. -/
def partitionLessFunc (less : α → α → Bool) (data : List α) (a b pivot : Nat) :
    List α × Nat × Bool :=
  let data := swap data a pivot
  let i := a + 1
  let j := b - 1
  let i := scanUp (fun k => less (read data k) (read data a)) (j + 1 - i) i j
  let j := scanDown (fun k => !less (read data k) (read data a)) (j + 1 - i) i j
  if i > j then (swap data j a, j, true)
  else
    let data := swap data i j
    let r := partitionLoop less a (j + 1 - i) data (i + 1) (j - 1)
    (swap r.1 r.2 a, r.2, false)

/-- Loop of `partitionEqual_func`; returns the data and the final `i`. -/
def partitionEqualLoop (less : α → α → Bool) (a : Nat) :
    Nat → List α → Nat → Nat → List α × Nat
  | 0, data, i, _ => (data, i)
  | n + 1, data, i, j =>
    let i := scanUp (fun k => !less (read data a) (read data k)) (j + 1 - i) i j
    let j := scanDown (fun k => less (read data a) (read data k)) (j + 1 - i) i j
    if i > j then (data, i)
    else partitionEqualLoop less a n (swap data i j) (i + 1) (j - 1)

/-- Go `partitionEqual_func(data, a, b, pivot)`: returns the data and the new
left bound. -/
def partitionEqualLessFunc (less : α → α → Bool) (data : List α) (a b pivot : Nat) :
    List α × Nat :=
  let data := swap data a pivot
  partitionEqualLoop less a (b - a) data (a + 1) (b - 1)

/-- Left shift inside `partialInsertionSort_func`:
`for j := i - 1; j >= 1; j-- { if !data.Less(j, j-1) { break }; data.Swap(j, j-1) }`. -/
def shiftLeft (less : α → α → Bool) : Nat → List α → List α
  | 0, data => data
  | j + 1, data =>
    if !less (read data (j + 1)) (read data j) then data
    else shiftLeft less j (swap data (j + 1) j)

/-- Right shift inside `partialInsertionSort_func`:
`for j := i + 1; j < b; j++ { if !data.Less(j, j-1) { break }; data.Swap(j, j-1) }`. -/
def shiftRight (less : α → α → Bool) (b : Nat) : Nat → Nat → List α → List α
  | 0, _, data => data
  | n + 1, j, data =>
    if j < b then
      if !less (read data j) (read data (j - 1)) then data
      else shiftRight less b n (j + 1) (swap data j (j - 1))
    else data

/-- Loop `for j := 0; j < maxSteps; j++` of `partialInsertionSort_func`, with
`steps` the number of iterations that remain. The scan
`for i < b && !data.Less(i, i-1) { i++ }` is `scanUp` up to `b - 1`. -/
def partialInsertionLoop (less : α → α → Bool) (a b : Nat) :
    Nat → Nat → List α → List α × Bool
  | 0, _, data => (data, false)
  | steps + 1, i, data =>
    let i := scanUp (fun k => !less (read data k) (read data (k - 1))) (b - i) i (b - 1)
    if i = b then (data, true)
    else if b - a < 50 then (data, false)
    else
      let data := swap data i (i - 1)
      let data := if i - a ≥ 2 then shiftLeft less (i - 1) data else data
      let data := if b - i ≥ 2 then shiftRight less b (b - (i + 1)) (i + 1) data else data
      partialInsertionLoop less a b steps i data

/-- Go `partialInsertionSort_func(data, a, b)` (`maxSteps = 5`,
`shortestShifting = 50`). -/
def partialInsertionSortLessFunc (less : α → α → Bool) (data : List α) (a b : Nat) :
    List α × Bool :=
  partialInsertionLoop less a b 5 (a + 1) data

/-- Go `bits.Len(uint(n))`: the number of bits needed to write `n`. -/
def bitsLenAux : Nat → Nat → Nat
  | 0, _ => 0
  | fuel + 1, n => if n = 0 then 0 else 1 + bitsLenAux fuel (n / 2)

/-- Go `bits.Len(uint(n))`. -/
def bitsLen (n : Nat) : Nat := bitsLenAux n n

/-- Go `nextPowerOfTwo(length)`: `1 << bits.Len(uint(length))`. -/
def nextPowerOfTwo (length : Nat) : Nat := 2 ^ bitsLen length

/-- Go `(*xorshift).Next` on a 64-bit state. The proofs below use of it only
that the index drawn from it is reduced below the length of the slice. -/
def xorshiftNext (r : Nat) : Nat :=
  let r := r ^^^ ((r <<< 13) % 2 ^ 64)
  let r := r ^^^ (r >>> 7)
  let r := r ^^^ ((r <<< 17) % 2 ^ 64)
  r

/-- Loop `for i := 0; i < 3; i++` of `breakPatterns_func`, with `n` the number
of iterations that remain: `data.Swap(idx+i, a+other)`. -/
def breakPatternsLoop (a length modulus idx : Nat) :
    Nat → Nat → Nat → List α → List α
  | 0, _, _, data => data
  | n + 1, i, random, data =>
    let random := xorshiftNext random
    let other := random &&& (modulus - 1)
    let other := if other ≥ length then other - length else other
    breakPatternsLoop a length modulus idx n (i + 1) random (swap data (idx + i) (a + other))

/-- Go `breakPatterns_func(data, a, b)`. -/
def breakPatternsLessFunc (data : List α) (a b : Nat) : List α :=
  let length := b - a
  if length ≥ 8 then
    let random := length
    let modulus := nextPowerOfTwo length
    let idx := a + (length / 4) * 2 - 1
    breakPatternsLoop a length modulus idx 3 0 random data
  else data

/-- Go `order2_func(data, a, b, swaps)`: returns the ordered pair and the
updated swap counter. -/
def order2LessFunc (less : α → α → Bool) (data : List α) (a b swaps : Nat) :
    Nat × Nat × Nat :=
  if less (read data b) (read data a) then (b, a, swaps + 1) else (a, b, swaps)

/-- Go `median_func(data, a, b, c, swaps)`: returns the median index and the
updated swap counter. -/
def medianLessFunc (less : α → α → Bool) (data : List α) (a b c swaps : Nat) :
    Nat × Nat :=
  let r1 := order2LessFunc less data a b swaps
  let r2 := order2LessFunc less data r1.2.1 c r1.2.2
  let r3 := order2LessFunc less data r1.1 r2.1 r2.2.2
  (r3.2.1, r3.2.2)

/-- Go `medianAdjacent_func(data, a, swaps)`. -/
def medianAdjacentLessFunc (less : α → α → Bool) (data : List α) (a swaps : Nat) :
    Nat × Nat :=
  medianLessFunc less data (a - 1) a (a + 1) swaps

/-- Go `choosePivot_func(data, a, b)` (`shortestNinther = 50`,
`maxSwaps = 4 * 3`). -/
def choosePivotLessFunc (less : α → α → Bool) (data : List α) (a b : Nat) :
    Nat × sortedHint :=
  let l := b - a
  let i := a + l / 4 * 1
  let j := a + l / 4 * 2
  let k := a + l / 4 * 3
  let r :=
    if l ≥ 8 then
      if l ≥ 50 then
        let ri := medianAdjacentLessFunc less data i 0
        let rj := medianAdjacentLessFunc less data j ri.2
        let rk := medianAdjacentLessFunc less data k rj.2
        medianLessFunc less data ri.1 rj.1 rk.1 rk.2
      else medianLessFunc less data i j k 0
    else (j, 0)
  if r.2 = 0 then (r.1, sortedHint.increasingHint)
  else if r.2 = 12 then (r.1, sortedHint.decreasingHint)
  else (r.1, sortedHint.unknownHint)

/-- Loop of `reverseRange_func`: `for i < j { data.Swap(i, j); i++; j-- }`. -/
def reverseLoop : Nat → Nat → Nat → List α → List α
  | 0, _, _, data => data
  | n + 1, i, j, data =>
    if i < j then reverseLoop n (i + 1) (j - 1) (swap data i j) else data

/-- Go `reverseRange_func(data, a, b)`. -/
def reverseRangeLessFunc (data : List α) (a b : Nat) : List α :=
  reverseLoop (b - a) a (b - 1) data

/-- Go `pdqsort_func(data, a, b, limit)` (`maxInsertion = 12`). The `for` loop
and the recursive call both strictly shrink `b - a`; `fuel` bounds it. The two
flags are the loop variables `wasBalanced` and `wasPartitioned`. -/
def pdqsortLessFunc (less : α → α → Bool) :
    Nat → List α → Nat → Nat → Nat → Bool → Bool → List α
  | 0, data, a, b, _, _, _ =>
    if b - a ≤ 12 then insertionSortLessFunc less data a b else data
  | fuel + 1, data, a, b, limit, wasBalanced, wasPartitioned =>
    let length := b - a
    if length ≤ 12 then insertionSortLessFunc less data a b
    else if limit = 0 then heapSortLessFunc less data a b
    else
      let data1 := if !wasBalanced then breakPatternsLessFunc data a b else data
      let limit := if !wasBalanced then limit - 1 else limit
      let ph := choosePivotLessFunc less data1 a b
      let data2 :=
        if ph.2 = sortedHint.decreasingHint then reverseRangeLessFunc data1 a b else data1
      let pivot := if ph.2 = sortedHint.decreasingHint then (b - 1) - (ph.1 - a) else ph.1
      let hint :=
        if ph.2 = sortedHint.decreasingHint then sortedHint.increasingHint else ph.2
      let pis :=
        if wasBalanced && wasPartitioned && hint = sortedHint.increasingHint then
          partialInsertionSortLessFunc less data2 a b
        else (data2, false)
      if pis.2 then pis.1
      else
        let data3 := pis.1
        if a > 0 && !less (read data3 (a - 1)) (read data3 pivot) then
          let pe := partitionEqualLessFunc less data3 a b pivot
          pdqsortLessFunc less fuel pe.1 pe.2 b limit wasBalanced wasPartitioned
        else
          let pt := partitionLessFunc less data3 a b pivot
          let mid := pt.2.1
          let leftLen := mid - a
          let rightLen := b - mid
          let balanceThreshold := length / 8
          if leftLen < rightLen then
            pdqsortLessFunc less fuel (pdqsortLessFunc less fuel pt.1 a mid limit true true)
              (mid + 1) b limit (decide (leftLen ≥ balanceThreshold)) pt.2.2
          else
            pdqsortLessFunc less fuel (pdqsortLessFunc less fuel pt.1 (mid + 1) b limit true true)
              a mid limit (decide (rightLen ≥ balanceThreshold)) pt.2.2

/-- Go `sort.Slice(x, less)`: `pdqsort_func(lessSwap, 0, length, bits.Len(length))`.
-/
def Slice [Inhabited α] (x : List α) (less : α → α → Bool) : List α :=
  let length := x.length
  let limit := bitsLen length
  pdqsortLessFunc less length x 0 length limit true true

/-- `RangePerm a b l l'`: `l'` is `l` with the elements at the indices `a ≤ k < b`
permuted among themselves and everything else left in place. -/
def RangePerm (a b : Nat) (l l' : List α) : Prop :=
  l'.length = l.length ∧
    ∃ σ : Equiv.Perm Nat, (∀ k, k < a ∨ b ≤ k → σ k = k) ∧ ∀ k, read l' k = read l (σ k)

/-- The comparison `less` is the strict order on a numeric key. -/
def LessKey (less : α → α → Bool) (key : α → Nat) : Prop :=
  ∀ x y, less x y = true ↔ key x < key y

/-- The keys of `data[a:b]` are in non-decreasing order. -/
def SortedOn (key : α → Nat) (a b : Nat) (data : List α) : Prop :=
  ∀ i, a ≤ i → i + 1 < b → key (read data i) ≤ key (read data (i + 1))

/-- Heap property at node `r` of the heap stored at `data[first : first + hi]`:
no child of `r` has a larger key than `r`. -/
def HeapAt (key : α → Nat) (data : List α) (first hi r : Nat) : Prop :=
  ∀ c x y, (c = 2 * r + 1 ∨ c = 2 * r + 2) → c < hi → x = first + c → y = first + r →
    key (read data x) ≤ key (read data y)

/-- Every element of `data[a:b]` has a key at least that of `data[a-1]` (when
`a > 0`): the state `pdqsort_func` is in whenever it works on a right part. -/
def LeftBound (key : α → Nat) (a b : Nat) (data : List α) : Prop :=
  ∀ m k, m + 1 = a → a ≤ k → k < b → key (read data m) ≤ key (read data k)

/-- The element at `mid` separates `data[a:b]`: nothing before it has a larger
key, nothing after it a smaller one (the state after `partition_func`). -/
def Pivoted (key : α → Nat) (a mid b : Nat) (data : List α) : Prop :=
  (∀ k, a ≤ k → k < mid → key (read data k) ≤ key (read data mid)) ∧
    (∀ k, mid < k → k < b → key (read data mid) ≤ key (read data k))

end GoSort

/-- Go type `BranchPriority` with the constants `PriorityMain = 1`,
`PriorityCurrent = 2`, `PriorityOther = 3`. -/
abbrev BranchPriority := Nat

/-- Constant `PriorityMain`. -/
def PriorityMain : BranchPriority := 1
/-- Constant `PriorityCurrent`. -/
def PriorityCurrent : BranchPriority := 2
/-- Constant `PriorityOther`. -/
def PriorityOther : BranchPriority := 3

/-- Go `getBranchPriority(branchName, currentBranch)`. -/
def getBranchPriority (branchName currentBranch : String) : BranchPriority :=
  if branchName = "main" then PriorityMain
  else if branchName = currentBranch then PriorityCurrent
  else PriorityOther

/-- Go `(m *MultiBranchLoader).sortBranchesByPriority(branches)` with
`m.CurrentBranch = currentBranch`: a copy of `branches` sorted with `sort.Slice`
under `priority(i) < priority(j)`. -/
def sortBranchesByPriority (currentBranch : String) (branches : List String) : List String :=
  GoSort.Slice branches (fun bi bj =>
    decide (getBranchPriority bi currentBranch < getBranchPriority bj currentBranch))

/-! ## The challenge records (`main.go`) -/

/-- Go `type Challenge struct { Name string; Tags []string }`. -/
structure Challenge where
  Name : String
  Tags : List String
  deriving DecidableEq, Repr

/-- Go `type ChallengeResult struct`: a challenge with its file path and the
branch it was found in. -/
structure ChallengeResult where
  Name : String
  Tags : List String
  FilePath : String
  BranchName : String
  deriving DecidableEq, Repr

/-! ## Multi-branch aggregation (`multi_branch_loader.go`) -/

/-- File contents (`[]byte`). -/
abbrev Bytes := List Nat

/-- The external operations `LoadChallenges` calls, each with its error result
as `none`: `listLocalBranches()`, `listChallengeFilesInBranch(branch, genre)`,
`getFileContentFromBranch(branch, path)` and `yaml.Unmarshal(content, &challenge)`. -/
structure Git where
  listLocalBranches : Option (List String)
  listChallengeFilesInBranch : String → String → Option (List String)
  getFileContentFromBranch : String → String → Option Bytes
  yamlUnmarshal : Bytes → Option Challenge

/-- Loop state of `LoadChallenges`: the keys of `processedFiles` and `results`. -/
abbrev LoadState := List String × List ChallengeResult

/-- Body of `for _, filePath := range files` in `LoadChallenges`. -/
def processFile (git : Git) (branch : String) (st : LoadState) (filePath : String) : LoadState :=
  if filePath ∈ st.1 then st
  else
    let processedFiles := filePath :: st.1
    match git.getFileContentFromBranch branch filePath with
    | none => (processedFiles, st.2)
    | some content =>
      match git.yamlUnmarshal content with
      | none => (processedFiles, st.2)
      | some challenge =>
        (processedFiles, st.2 ++ [⟨challenge.Name, challenge.Tags, filePath, branch⟩])

/-- Body of `for _, genre := range genres` in `LoadChallenges`. -/
def processGenre (git : Git) (branch : String) (st : LoadState) (genre : String) : LoadState :=
  match git.listChallengeFilesInBranch branch genre with
  | none => st
  | some files => files.foldl (processFile git branch) st

/-- Body of `for _, branch := range sortedBranches` in `LoadChallenges`. -/
def processBranch (git : Git) (genres : List String) (st : LoadState) (branch : String) :
    LoadState :=
  genres.foldl (processGenre git branch) st

/-- Go `(m *MultiBranchLoader).LoadChallenges(genres)` with
`m.CurrentBranch = currentBranch`; `none` is the error return. -/
def LoadChallenges (git : Git) (currentBranch : String) (genres : List String) :
    Option (List ChallengeResult) :=
  match git.listLocalBranches with
  | none => none
  | some branches =>
    let sortedBranches := sortBranchesByPriority currentBranch branches
    some (sortedBranches.foldl (processBranch git genres) ([], [])).2

/-- Branch `branch` lists the path `filePath` under one of the genres. -/
def BranchLists (git : Git) (genres : List String) (branch filePath : String) : Prop :=
  ∃ genre ∈ genres, ∃ files, git.listChallengeFilesInBranch branch genre = some files ∧
    filePath ∈ files

/-- The result `LoadChallenges` appends for `filePath` in `branch`, when its
content is retrieved and parsed. -/
def loadResult (git : Git) (branch filePath : String) : Option ChallengeResult :=
  match git.getFileContentFromBranch branch filePath with
  | none => none
  | some content =>
    match git.yamlUnmarshal content with
    | none => none
    | some challenge => some ⟨challenge.Name, challenge.Tags, filePath, branch⟩

/-- The (branch, path) pairs `LoadChallenges` visits, in the order of its three
nested loops. -/
def candidates (git : Git) (genres branches : List String) : List (String × String) :=
  branches.flatMap fun branch =>
    genres.flatMap fun genre =>
      match git.listChallengeFilesInBranch branch genre with
      | none => []
      | some files => files.map fun filePath => (branch, filePath)

/-- One visit of the innermost loop of `LoadChallenges`, on a (branch, path) pair. -/
def processCandidate (git : Git) (st : LoadState) (c : String × String) : LoadState :=
  processFile git c.1 st c.2

/-- An example repository with three branches: `main` holds
`web/a/challenge.yml`, `feat/test` holds `web/a/challenge.yml` and
`web/b/challenge.yml`, `feat/other` holds nothing; every copy parses. -/
def exampleGit : Git where
  listLocalBranches := some ["feat/other", "main", "feat/test"]
  listChallengeFilesInBranch := fun branch genre =>
    if genre = "web" then
      if branch = "main" then some ["web/a/challenge.yml"]
      else if branch = "feat/test" then some ["web/a/challenge.yml", "web/b/challenge.yml"]
      else some []
    else none
  getFileContentFromBranch := fun branch path =>
    if branch = "main" then some [1]
    else if path = "web/a/challenge.yml" then some [2]
    else some [3]
  yamlUnmarshal := fun content =>
    if content = [1] then some ⟨"A on main", ["web"]⟩
    else if content = [2] then some ⟨"A on feat/test", ["web"]⟩
    else if content = [3] then some ⟨"B", ["web", "xss"]⟩
    else none

/-- The repository of the spec's scenario: branches `main` and `feature/x` both
hold `web/a/challenge.yml`; the copy on `main` is malformed, the copy on
`feature/x` is valid. -/
def scenarioGit : Git where
  listLocalBranches := some ["feature/x", "main"]
  listChallengeFilesInBranch := fun _ genre =>
    if genre = "web" then some ["web/a/challenge.yml"] else none
  getFileContentFromBranch := fun branch _ => if branch = "main" then some [0] else some [1]
  yamlUnmarshal := fun content => if content = [1] then some ⟨"a", ["web"]⟩ else none

/-! ## Tag filters (`main.go`) -/

/-- Go `unicode.ToLower(r)`: ASCII letters are shifted, every other rune goes
through the Unicode case table, which is the parameter `caseTable`. -/
def unicodeToLower (caseTable : Char → Char) (r : Char) : Char :=
  if r.toNat ≤ 0x7F then
    if 'A'.toNat ≤ r.toNat ∧ r.toNat ≤ 'Z'.toNat then Char.ofNat (r.toNat + ('a'.toNat - 'A'.toNat))
    else r
  else caseTable r

/-- Go `strings.ToLower(s)` on a valid UTF-8 string: every rune mapped through
`unicode.ToLower`. -/
def ToLower (caseTable : Char → Char) (s : String) : String :=
  String.mk (s.data.map (unicodeToLower caseTable))

/-- Go `unicode.IsSpace(r)`: the Unicode White_Space property. -/
def unicodeIsSpace (r : Char) : Bool :=
  let n := r.toNat
  if n ≤ 0xFF then
    n = 0x09 || n = 0x0A || n = 0x0B || n = 0x0C || n = 0x0D || n = 0x20 || n = 0x85 || n = 0xA0
  else
    n = 0x1680 || (0x2000 ≤ n && n ≤ 0x200A) || n = 0x2028 || n = 0x2029 || n = 0x202F ||
      n = 0x205F || n = 0x3000

/-- Go `strings.TrimSpace(s)`: leading and trailing white space removed. -/
def TrimSpace (s : String) : String :=
  String.mk ((s.data.dropWhile unicodeIsSpace).reverse.dropWhile unicodeIsSpace).reverse

/-- Whether `substr` occurs in `s` at some position (on rune lists). -/
def containsRunes : List Char → List Char → Bool
  | [], substr => substr.isEmpty
  | c :: s, substr => substr.isPrefixOf (c :: s) || containsRunes s substr

/-- Go `strings.Contains(s, substr)` on valid UTF-8 strings. -/
def Contains (s substr : String) : Bool := containsRunes s.data substr.data

/-- Inner loop of `hasMatchingTag`: `for _, challengeTag := range challengeTags`. -/
def hasMatchingTagInner (caseTable : Char → Char) (searchTag : String) : List String → Bool
  | [] => false
  | challengeTag :: rest =>
    if Contains (ToLower caseTable challengeTag) (ToLower caseTable searchTag) then true
    else hasMatchingTagInner caseTable searchTag rest

/-- Go `hasMatchingTag(challengeTags, searchTags)`. -/
def hasMatchingTag (caseTable : Char → Char) (challengeTags : List String) : List String → Bool
  | [] => false
  | searchTag :: rest =>
    if hasMatchingTagInner caseTable searchTag challengeTags then true
    else hasMatchingTag caseTable challengeTags rest

/-- Go `filterChallengesByTags(allChallenges, searchTags)`. -/
def filterChallengesByTags (caseTable : Char → Char) (allChallenges : List ChallengeResult)
    (searchTags : List String) : List ChallengeResult :=
  allChallenges.foldl
    (fun results challenge =>
      if hasMatchingTag caseTable challenge.Tags searchTags then results ++ [challenge]
      else results)
    []

/-- Inner loop of `filterChallengesByInput`: `for _, tag := range challenge.Tags`,
true when it reaches the `append ... break`. -/
def inputMatchesTags (caseTable : Char → Char) (searchTerm : String) : List String → Bool
  | [] => false
  | tag :: rest =>
    if Contains (ToLower caseTable tag) searchTerm then true
    else inputMatchesTags caseTable searchTerm rest

/-- Go `filterChallengesByInput(allChallenges, input)`. -/
def filterChallengesByInput (caseTable : Char → Char) (allChallenges : List ChallengeResult)
    (input : String) : List ChallengeResult :=
  if input = "" then allChallenges
  else
    let searchTerm := ToLower caseTable (TrimSpace input)
    allChallenges.foldl
      (fun results challenge =>
        if inputMatchesTags caseTable searchTerm challenge.Tags then results ++ [challenge]
        else results)
      []

/-! ## Branch file lister (`git_utils.go`) -/

/-- Go `strings.HasSuffix(s, suffix)`. -/
def HasSuffix (s suffix : String) : Bool := suffix.data.isSuffixOf s.data

/-- The pieces of a rune list between the newline characters. -/
def splitNewlineRunes : List Char → List (List Char)
  | [] => [[]]
  | c :: cs =>
    if c = '\n' then [] :: splitNewlineRunes cs
    else
      match splitNewlineRunes cs with
      | [] => [[c]]
      | line :: lines => (c :: line) :: lines

/-- Go `strings.Split(s, "\n")`. -/
def SplitNewline (s : String) : List String := (splitNewlineRunes s.data).map String.mk

/-- The loop of `listChallengeFilesInBranch` over the lines of the tree listing:
a line with the suffix `challenge.yml` is kept as `genre/line`. -/
def challengeFilesOfLines (genre : String) (lines : List String) : List String :=
  lines.foldl
    (fun challengeFiles line =>
      if HasSuffix line "challenge.yml" then challengeFiles ++ [genre ++ "/" ++ line]
      else challengeFiles)
    []

/-- Go `listChallengeFilesInBranch(branch, genre)`; `lsTree branch genre` is the
output of `git ls-tree -r --name-only branch:genre`, `none` when the command
fails. The error result of the function is always `nil`. -/
def listChallengeFilesInBranch (lsTree : String → String → Option String)
    (branch genre : String) : Option (List String) :=
  match lsTree branch genre with
  | none => some []
  | some output => some (challengeFilesOfLines genre (SplitNewline (TrimSpace output)))

/-- The last component of a slash-separated path (what `d.Name()` is in the
working-tree loader). -/
def fileName (path : String) : String :=
  String.mk (path.data.reverse.takeWhile (fun c => c ≠ '/')).reverse

/-! ## Discovery order, in the words of the spec -/

/-- The first occurrence of each file path in a sequence of (branch, path)
pairs, in the order of the sequence. -/
def keepFirstByPath : List (String × String) → List (String × String)
  | [] => []
  | c :: cs => c :: (keepFirstByPath cs).filter (fun d => d.2 ≠ c.2)

/-- Discovery order: branches in the given order, genres in the given order within
each branch, files in listing order within each genre; of these only the first
occurrence of each path, and of the first occurrences only those that are
retrieved and parsed. -/
def discoveryOrder (git : Git) (genres branches : List String) : List ChallengeResult :=
  (keepFirstByPath (candidates git genres branches)).filterMap
    (fun c => loadResult git c.1 c.2)

/-! ## Interactive search loop (`main.go`, `interactiveSearch`) -/

/-- The loop variables `input []rune` and `cursorPos int`. -/
structure SearchState where
  input : List Char
  cursorPos : Int
  deriving DecidableEq, Repr

/-- Result of one `os.Stdin.Read`: an error, or the bytes read (`n` is their
number). -/
inductive ReadResult
  | err
  | bytes (bs : List Nat)
  deriving DecidableEq, Repr

/-- What one pass of the `for` loop consumes: the result of `Read(buf[:1])` and,
for the pass that reads an escape sequence, the result of `Read(buf[1:3])`. -/
structure Event where
  first : ReadResult
  second : ReadResult
  deriving DecidableEq, Repr

/-- How one pass of the loop ends. -/
inductive Outcome
  | next (s : SearchState)
  | goodbye
  | selected (r : ChallengeResult)
  | readError
  | indexOutOfRange
  deriving DecidableEq, Repr

/-- Go slice expression `xs[:hi]` (bounds checked against the length). -/
def sliceTo (xs : List Char) (hi : Int) : Option (List Char) :=
  if 0 ≤ hi ∧ hi ≤ xs.length then some (xs.take hi.toNat) else none

/-- Go slice expression `xs[lo:]`. -/
def sliceFrom (xs : List Char) (lo : Int) : Option (List Char) :=
  if 0 ≤ lo ∧ lo ≤ xs.length then some (xs.drop lo.toNat) else none

/-- Case `27` of the switch: the escape sequence in `buf[1:3]`. -/
def stepEscape (s : SearchState) (second : ReadResult) : Outcome :=
  match second with
  | ReadResult.err => Outcome.next s
  | ReadResult.bytes bs =>
    match bs.take 2 with
    | [b1, b2] =>
      if b1 = '['.toNat then
        if b2 = 'D'.toNat then
          if s.cursorPos > 0 then Outcome.next { s with cursorPos := s.cursorPos - 1 }
          else Outcome.next s
        else if b2 = 'C'.toNat then
          if s.cursorPos < s.input.length then Outcome.next { s with cursorPos := s.cursorPos + 1 }
          else Outcome.next s
        else Outcome.next s
      else Outcome.next s
    | _ => Outcome.next s

/-- Case `127, 8` of the switch: backspace or delete. -/
def stepBackspace (s : SearchState) : Outcome :=
  if s.cursorPos > 0 ∧ s.input.length > 0 then
    match sliceTo s.input (s.cursorPos - 1), sliceFrom s.input s.cursorPos with
    | some before, some after => Outcome.next ⟨before ++ after, s.cursorPos - 1⟩
    | _, _ => Outcome.indexOutOfRange
  else Outcome.next s

/-- Case `13` of the switch: enter. -/
def stepEnter (caseTable : Char → Char) (allChallenges : List ChallengeResult)
    (s : SearchState) : Outcome :=
  match filterChallengesByInput caseTable allChallenges (String.mk s.input) with
  | selected :: _ => Outcome.selected selected
  | [] => Outcome.next s

/-- The `default` case of the switch: a printable character is inserted. -/
def stepDefault (s : SearchState) (char : Nat) : Outcome :=
  if char ≥ 32 ∧ char ≤ 126 then
    match sliceTo s.input s.cursorPos, sliceFrom s.input s.cursorPos with
    | some before, some after =>
      Outcome.next ⟨before ++ (Char.ofNat char :: after), s.cursorPos + 1⟩
    | _, _ => Outcome.indexOutOfRange
  else Outcome.next s

/-- One pass of the `for` loop of `interactiveSearch`. -/
def step (caseTable : Char → Char) (allChallenges : List ChallengeResult) (s : SearchState)
    (e : Event) : Outcome :=
  match e.first with
  | ReadResult.err => Outcome.readError
  | ReadResult.bytes bs =>
    match bs.take 1 with
    | [char] =>
      if char = 3 then Outcome.goodbye
      else if char = 27 then stepEscape s e.second
      else if char = 127 ∨ char = 8 then stepBackspace s
      else if char = 13 then stepEnter caseTable allChallenges s
      else stepDefault s char
    | _ => Outcome.next s

/-- The loop of `interactiveSearch` run on a sequence of events: it stops at the
first pass that does not continue. -/
def run (caseTable : Char → Char) (allChallenges : List ChallengeResult) :
    SearchState → List Event → Outcome
  | s, [] => Outcome.next s
  | s, e :: es =>
    match step caseTable allChallenges s e with
    | Outcome.next s' => run caseTable allChallenges s' es
    | o => o

/-- The state at loop entry: `var input []rune`, `var cursorPos int`. -/
def initialState : SearchState := ⟨[], 0⟩

/-- The cursor invariant on an outcome of the loop: a state that continues has
`0 ≤ cursorPos ≤ len(input)`, and no slice expression went out of range. -/
def OutcomeOk : Outcome → Prop
  | Outcome.next s => 0 ≤ s.cursorPos ∧ s.cursorPos ≤ s.input.length
  | Outcome.indexOutOfRange => False
  | _ => True

/-! ## Correctness of the sort

Every pass of the sort permutes `data[a:b]` in place (`RangePerm`), and the
result of `pdqsort_func` is ordered by key (`SortedOn`). -/

namespace GoSort

variable {α : Type} [Inhabited α]


theorem length_swap (data : List α) (i j : Nat) : (swap data i j).length = data.length := by
  simp [swap]

theorem read_swap (data : List α) {i j : Nat} (hi : i < data.length) (hj : j < data.length)
    (k : Nat) :
    read (swap data i j) k =
      if k = j then read data i else if k = i then read data j else read data k := by
  unfold swap read
  simp only [List.getD_eq_getElem?_getD, List.getElem?_set]
  by_cases h1 : k = j
  · subst h1; simp [hj]
  · by_cases h2 : k = i
    · subst h2; simp [hi, Ne.symm h1, h1]
    · simp [h1, h2, Ne.symm h1, Ne.symm h2]

theorem RangePerm.refl (a b : Nat) (l : List α) : RangePerm a b l l :=
  ⟨rfl, Equiv.refl _, fun _ _ => rfl, fun _ => rfl⟩

theorem RangePerm.trans {a b : Nat} {l₁ l₂ l₃ : List α} (h₁ : RangePerm a b l₁ l₂)
    (h₂ : RangePerm a b l₂ l₃) : RangePerm a b l₁ l₃ := by
  obtain ⟨e₁, σ₁, f₁, r₁⟩ := h₁
  obtain ⟨e₂, σ₂, f₂, r₂⟩ := h₂
  refine ⟨e₂.trans e₁, σ₂.trans σ₁, fun k hk => ?_, fun k => ?_⟩
  · simp [Equiv.trans_apply, f₂ k hk, f₁ k hk]
  · simp [Equiv.trans_apply, r₂ k, r₁ (σ₂ k)]

theorem RangePerm.mono {a b a' b' : Nat} {l l' : List α} (h : RangePerm a b l l')
    (ha : a' ≤ a) (hb : b ≤ b') : RangePerm a' b' l l' := by
  obtain ⟨e, σ, f, r⟩ := h
  exact ⟨e, σ, fun k hk => f k (by omega), r⟩

theorem RangePerm.length_eq {a b : Nat} {l l' : List α} (h : RangePerm a b l l') :
    l'.length = l.length := h.1

theorem RangePerm.swap {a b : Nat} (l : List α) {i j : Nat} (hb : b ≤ l.length)
    (hi : a ≤ i) (hi' : i < b) (hj : a ≤ j) (hj' : j < b) : RangePerm a b l (swap l i j) := by
  refine ⟨length_swap l i j, Equiv.swap i j, fun k hk => ?_, fun k => ?_⟩
  · exact Equiv.swap_apply_of_ne_of_ne (by omega) (by omega)
  · rw [read_swap l (by omega) (by omega)]
    by_cases h1 : k = j
    · subst h1; simp
    · by_cases h2 : k = i
      · subst h2; simp [h1]
      · simp [h1, h2, Equiv.swap_apply_of_ne_of_ne h2 h1]

/-- A permutation of the indices that fixes everything outside `[a, b)` maps
`[a, b)` to itself. -/
theorem perm_maps_range {a b : Nat} {σ : Equiv.Perm Nat} (f : ∀ k, k < a ∨ b ≤ k → σ k = k)
    {k : Nat} (h1 : a ≤ k) (h2 : k < b) : a ≤ σ k ∧ σ k < b := by
  by_contra hc
  have hfix : σ (σ k) = σ k := f (σ k) (by omega)
  have := σ.injective hfix
  omega

theorem RangePerm.read_outside {a b : Nat} {l l' : List α} (h : RangePerm a b l l') {k : Nat}
    (hk : k < a ∨ b ≤ k) : read l' k = read l k := by
  obtain ⟨_, σ, f, r⟩ := h
  rw [r k, f k hk]

theorem RangePerm.exists_read {a b : Nat} {l l' : List α} (h : RangePerm a b l l') {k : Nat}
    (h1 : a ≤ k) (h2 : k < b) : ∃ k', a ≤ k' ∧ k' < b ∧ read l' k = read l k' := by
  obtain ⟨_, σ, f, r⟩ := h
  exact ⟨σ k, (perm_maps_range f h1 h2).1, (perm_maps_range f h1 h2).2, r k⟩

theorem RangePerm.forall_range {a b : Nat} {l l' : List α} (h : RangePerm a b l l')
    {P : α → Prop} (hP : ∀ k, a ≤ k → k < b → P (read l k)) :
    ∀ k, a ≤ k → k < b → P (read l' k) := by
  intro k h1 h2
  obtain ⟨k', h1', h2', e⟩ := h.exists_read h1 h2
  rw [e]; exact hP k' h1' h2'

theorem map_read_range (l : List α) : (List.range l.length).map (read l) = l := by
  apply List.ext_getElem
  · simp
  · intro i h1 h2
    simp [read, List.getD_eq_getElem?_getD, List.getElem?_eq_getElem h2]

theorem RangePerm.perm {l l' : List α} (h : RangePerm 0 l.length l l') : l'.Perm l := by
  obtain ⟨e, σ, f, r⟩ := h
  have h1 : l' = ((List.range l.length).map σ).map (read l) := by
    conv_lhs => rw [← map_read_range l', e]
    rw [List.map_map]
    apply List.map_congr_left
    intro k _
    simp [r k]
  have h2 : ((List.range l.length).map σ).Perm (List.range l.length) := by
    apply (List.perm_ext_iff_of_nodup ?_ (List.nodup_range _)).2
    · intro x
      simp only [List.mem_map, List.mem_range]
      constructor
      · rintro ⟨k, hk, rfl⟩
        exact (perm_maps_range f (Nat.zero_le k) hk).2
      · intro hx
        refine ⟨σ.symm x, ?_, by simp⟩
        have f' : ∀ k, k < 0 ∨ l.length ≤ k → σ.symm k = k := by
          intro k hk
          rw [Equiv.symm_apply_eq]; exact (f k hk).symm
        exact (perm_maps_range f' (Nat.zero_le x) hx).2
    · exact (List.nodup_range _).map σ.injective
  rw [h1]
  exact (h2.map _).trans (by rw [map_read_range l])


theorem SortedOn.le {key : α → Nat} {a b : Nat} {data : List α} (h : SortedOn key a b data)
    {i j : Nat} (hi : a ≤ i) (hij : i ≤ j) (hj : j < b) :
    key (read data i) ≤ key (read data j) := by
  induction j with
  | zero =>
    have : i = 0 := by omega
    subst this; exact le_rfl
  | succ j ih =>
    by_cases e : i = j + 1
    · subst e; exact le_rfl
    · exact le_trans (ih (by omega) (by omega)) (h j (by omega) (by omega))

theorem SortedOn.of_length_le {key : α → Nat} {a b : Nat} (data : List α) (h : b ≤ a + 1) :
    SortedOn key a b data := fun i _ _ => by omega

theorem insertionInner_spec {less : α → α → Bool} {key : α → Nat} (hless : LessKey less key)
    (a i : Nat) : ∀ (j : Nat) (data : List α), j ≤ i → a ≤ j → i < data.length →
      (∀ k, a ≤ k → k + 1 ≤ i → k + 1 ≠ j → key (read data k) ≤ key (read data (k + 1))) →
      (∀ m, m + 1 = j → a ≤ m → j < i → key (read data m) ≤ key (read data (j + 1))) →
      RangePerm a (i + 1) data (insertionInner less a j data) ∧
        SortedOn key a (i + 1) (insertionInner less a j data) := by
  intro j
  induction j with
  | zero =>
    intro data _ _ _ h1 _
    exact ⟨RangePerm.refl _ _ _, fun k hk hk' => h1 k hk (by omega) (by omega)⟩
  | succ j ih =>
    intro data hji haj hlen h1 h2
    rw [insertionInner]
    split
    · rename_i hc
      simp only [Bool.and_eq_true, decide_eq_true_eq, hless _ _] at hc
      obtain ⟨hc1, hc2⟩ := hc
      have hsw : RangePerm a (i + 1) data (swap data (j + 1) j) :=
        RangePerm.swap data (by omega) (by omega) (by omega) (by omega) (by omega)
      have hrd := read_swap data (i := j + 1) (j := j) (by omega) (by omega)
      obtain ⟨p, s⟩ := ih (swap data (j + 1) j) (by omega) (by omega)
        (by rw [length_swap]; exact hlen)
        (by
          intro k hk1 hk2 hk3
          rw [hrd, hrd]
          have e1 := h1 k hk1 hk2
          have e2 := h2 j rfl
          split_ifs <;> (try subst_vars) <;> omega)
        (by
          intro m hm1 hm2 hm3
          rw [hrd, hrd]
          have e1 := h1 m hm2 (by omega) (by omega)
          subst hm1
          split_ifs <;> omega)
      exact ⟨hsw.trans p, s⟩
    · rename_i hc
      simp only [Bool.and_eq_true, decide_eq_true_eq, hless _ _, not_and, not_lt] at hc
      refine ⟨RangePerm.refl _ _ _, fun k hk hk' => ?_⟩
      by_cases e : k = j
      · subst e
        exact hc (by omega)
      · exact h1 k hk (by omega) (by omega)

theorem insertionOuter_spec {less : α → α → Bool} {key : α → Nat} (hless : LessKey less key)
    (a b : Nat) : ∀ (n i : Nat) (data : List α), b ≤ i + n → a < i → i ≤ b → b ≤ data.length →
      SortedOn key a i data →
      RangePerm a b data (insertionOuter less a b n i data) ∧
        SortedOn key a b (insertionOuter less a b n i data) := by
  intro n
  induction n with
  | zero =>
    intro i data h1 _ h3 _ hs
    have : i = b := by omega
    subst this
    exact ⟨RangePerm.refl _ _ _, hs⟩
  | succ n ih =>
    intro i data h1 h2 h3 h4 hs
    rw [insertionOuter]
    split
    · rename_i hc
      obtain ⟨p, s⟩ := insertionInner_spec hless a i i data le_rfl (by omega) (by omega)
        (fun k hk1 hk2 hk3 => hs k hk1 (by omega)) (fun m _ _ hm => by omega)
      obtain ⟨p', s'⟩ := ih (i + 1) _ (by omega) (by omega) (by omega)
        (by rw [p.length_eq]; exact h4) s
      exact ⟨(p.mono le_rfl (by omega)).trans p', s'⟩
    · have : i = b := by omega
      subst this
      exact ⟨RangePerm.refl _ _ _, hs⟩

theorem insertionSort_spec {less : α → α → Bool} {key : α → Nat} (hless : LessKey less key)
    (data : List α) (a b : Nat) (hb : b ≤ data.length) :
    RangePerm a b data (insertionSortLessFunc less data a b) ∧
      SortedOn key a b (insertionSortLessFunc less data a b) := by
  unfold insertionSortLessFunc
  by_cases h : a + 1 ≤ b
  · exact insertionOuter_spec hless a b _ _ data (by omega) (by omega) h hb
      (SortedOn.of_length_le data le_rfl)
  · have e : b - (a + 1) = 0 := by omega
    rw [e, insertionOuter]
    exact ⟨RangePerm.refl _ _ _, SortedOn.of_length_le data (by omega)⟩


omit [Inhabited α] in
theorem LessKey.eq_false {less : α → α → Bool} {key : α → Nat} (h : LessKey less key) (x y : α) :
    less x y = false ↔ key y ≤ key x := by
  rw [← not_lt, ← h x y]; simp

theorem scanUp_spec (p : Nat → Bool) : ∀ (n i j : Nat), j + 1 ≤ i + n → i ≤ j + 1 →
    i ≤ scanUp p n i j ∧ scanUp p n i j ≤ j + 1 ∧
      (∀ k, i ≤ k → k < scanUp p n i j → p k = true) ∧
      (scanUp p n i j ≤ j → p (scanUp p n i j) = false) := by
  intro n
  induction n with
  | zero =>
    intro i j h1 h2
    simp only [scanUp]
    exact ⟨le_rfl, h2, fun k _ _ => by omega, fun h => by omega⟩
  | succ n ih =>
    intro i j h1 h2
    rw [scanUp]
    split
    · rename_i hc
      simp only [Bool.and_eq_true, decide_eq_true_eq] at hc
      obtain ⟨r1, r2, r3, r4⟩ := ih (i + 1) j (by omega) (by omega)
      refine ⟨by omega, r2, fun k hk1 hk2 => ?_, r4⟩
      by_cases e : k = i
      · subst e; exact hc.2
      · exact r3 k (by omega) hk2
    · rename_i hc
      simp only [Bool.and_eq_true, decide_eq_true_eq, not_and, Bool.not_eq_true] at hc
      exact ⟨le_rfl, h2, fun k _ _ => by omega, hc⟩

theorem scanDown_spec (p : Nat → Bool) : ∀ (n i j : Nat), j + 1 ≤ i + n → i ≤ j + 1 → 1 ≤ i →
    scanDown p n i j ≤ j ∧ i ≤ scanDown p n i j + 1 ∧
      (∀ k, scanDown p n i j < k → k ≤ j → p k = true) ∧
      (i ≤ scanDown p n i j → p (scanDown p n i j) = false) := by
  intro n
  induction n with
  | zero =>
    intro i j h1 h2 _
    simp only [scanDown]
    exact ⟨le_rfl, h2, fun k _ _ => by omega, fun h => by omega⟩
  | succ n ih =>
    intro i j h1 h2 h3
    rw [scanDown]
    split
    · rename_i hc
      simp only [Bool.and_eq_true, decide_eq_true_eq] at hc
      obtain ⟨r1, r2, r3, r4⟩ := ih i (j - 1) (by omega) (by omega) h3
      refine ⟨by omega, r2, fun k hk1 hk2 => ?_, r4⟩
      by_cases e : k = j
      · subst e; exact hc.2
      · exact r3 k hk1 (by omega)
    · rename_i hc
      simp only [Bool.and_eq_true, decide_eq_true_eq, not_and, Bool.not_eq_true] at hc
      exact ⟨le_rfl, h2, fun k _ _ => by omega, hc⟩

theorem partitionLoop_spec {less : α → α → Bool} {key : α → Nat} (hless : LessKey less key)
    (a b : Nat) : ∀ (n : Nat) (data : List α) (i j : Nat), j + 1 ≤ i + n → a + 1 ≤ i →
      i ≤ j + 1 → j < b → b ≤ data.length →
      (∀ k, a < k → k < i → key (read data k) < key (read data a)) →
      (∀ k, j < k → k < b → key (read data a) ≤ key (read data k)) →
      RangePerm (a + 1) b data (partitionLoop less a n data i j).1 ∧
        a ≤ (partitionLoop less a n data i j).2 ∧ (partitionLoop less a n data i j).2 < b ∧
        (∀ k, a < k → k ≤ (partitionLoop less a n data i j).2 →
          key (read (partitionLoop less a n data i j).1 k) < key (read data a)) ∧
        (∀ k, (partitionLoop less a n data i j).2 < k → k < b →
          key (read data a) ≤ key (read (partitionLoop less a n data i j).1 k)) := by
  intro n
  induction n with
  | zero =>
    intro data i j h1 h2 h3 h4 _ h6 h7
    simp only [partitionLoop]
    exact ⟨RangePerm.refl _ _ _, by omega, h4, fun k hk1 hk2 => h6 k hk1 (by omega), h7⟩
  | succ n ih =>
    intro data i j h1 h2 h3 h4 h5 h6 h7
    rw [partitionLoop]
    obtain ⟨u1, u2, u3, u4⟩ :=
      scanUp_spec (fun k => less (read data k) (read data a)) (j + 1 - i) i j (by omega) h3
    generalize scanUp (fun k => less (read data k) (read data a)) (j + 1 - i) i j = i' at *
    obtain ⟨d1, d2, d3, d4⟩ :=
      scanDown_spec (fun k => !less (read data k) (read data a)) (j + 1 - i') i' j
        (by omega) u2 (by omega)
    generalize scanDown (fun k => !less (read data k) (read data a)) (j + 1 - i') i' j = j' at *
    simp only [hless _ _, hless.eq_false, Bool.not_eq_true', Bool.not_eq_false'] at u3 u4 d3 d4
    have A1 : ∀ k, a < k → k < i' → key (read data k) < key (read data a) := by
      intro k hk1 hk2
      by_cases e : k < i
      · exact h6 k hk1 e
      · exact u3 k (by omega) hk2
    have A2 : ∀ k, j' < k → k < b → key (read data a) ≤ key (read data k) := by
      intro k hk1 hk2
      by_cases e : j < k
      · exact h7 k e hk2
      · exact d3 k hk1 (by omega)
    split
    · exact ⟨RangePerm.refl _ _ _, by omega, by omega, fun k hk1 hk2 => A1 k hk1 (by omega), A2⟩
    · rename_i hc
      have hij : i' ≤ j' := by omega
      have e1 := u4 (by omega)
      have e2 := d4 hij
      have hne : i' ≠ j' := by
        intro e; subst e; omega
      have hrd := read_swap data (i := i') (j := j') (by omega) (by omega)
      have hsw : RangePerm (a + 1) b data (swap data i' j') :=
        RangePerm.swap data h5 (by omega) (by omega) (by omega) (by omega)
      have hra : read (swap data i' j') a = read data a := by
        rw [hrd]; rw [if_neg (by omega), if_neg (by omega)]
      obtain ⟨q1, q2, q3, q4, q5⟩ := ih (swap data i' j') (i' + 1) (j' - 1) (by omega) (by omega)
        (by omega) (by omega) (by rw [length_swap]; exact h5)
        (by
          intro k hk1 hk2
          rw [hra, hrd]
          have := A1 k hk1
          split_ifs <;> (try subst_vars) <;> omega)
        (by
          intro k hk1 hk2
          rw [hra, hrd]
          have := A2 k
          split_ifs <;> (try subst_vars) <;> omega)
      rw [hra] at q4 q5
      exact ⟨hsw.trans q1, q2, q3, q4, q5⟩


theorem partition_finish (key : α → Nat) (d : List α) (a b m : Nat) (hb : b ≤ d.length)
    (h1 : a ≤ m) (h2 : m < b)
    (h3 : ∀ k, a < k → k ≤ m → key (read d k) < key (read d a))
    (h4 : ∀ k, m < k → k < b → key (read d a) ≤ key (read d k)) :
    RangePerm a b d (swap d m a) ∧
      (∀ k, a ≤ k → k < m → key (read (swap d m a) k) < key (read (swap d m a) m)) ∧
      (∀ k, m < k → k < b → key (read (swap d m a) m) ≤ key (read (swap d m a) k)) := by
  have hrd := read_swap d (i := m) (j := a) (by omega) (by omega)
  refine ⟨RangePerm.swap d hb h1 h2 le_rfl (by omega), fun k hk1 hk2 => ?_, fun k hk1 hk2 => ?_⟩
  · rw [hrd, hrd]
    have e1 := h3 k
    have e2 := h3 m
    split_ifs <;> (try subst_vars) <;> omega
  · rw [hrd, hrd]
    have e1 := h4 k
    split_ifs <;> (try subst_vars) <;> omega

theorem partition_spec {less : α → α → Bool} {key : α → Nat} (hless : LessKey less key)
    (data : List α) (a b pivot : Nat) (hp1 : a ≤ pivot) (hp2 : pivot < b)
    (hb : b ≤ data.length) :
    RangePerm a b data (partitionLessFunc less data a b pivot).1 ∧
      a ≤ (partitionLessFunc less data a b pivot).2.1 ∧
      (partitionLessFunc less data a b pivot).2.1 < b ∧
      (∀ k, a ≤ k → k < (partitionLessFunc less data a b pivot).2.1 →
        key (read (partitionLessFunc less data a b pivot).1 k) <
          key (read (partitionLessFunc less data a b pivot).1
            (partitionLessFunc less data a b pivot).2.1)) ∧
      (∀ k, (partitionLessFunc less data a b pivot).2.1 < k → k < b →
        key (read (partitionLessFunc less data a b pivot).1
            (partitionLessFunc less data a b pivot).2.1) ≤
          key (read (partitionLessFunc less data a b pivot).1 k)) := by
  unfold partitionLessFunc
  have hsw0 : RangePerm a b data (swap data a pivot) :=
    RangePerm.swap data hb le_rfl (by omega) hp1 hp2
  have hlen0 : b ≤ (swap data a pivot).length := by rw [length_swap]; exact hb
  generalize swap data a pivot = d0 at *
  simp only []
  obtain ⟨u1, u2, u3, u4⟩ :=
    scanUp_spec (fun k => less (read d0 k) (read d0 a)) (b - 1 + 1 - (a + 1)) (a + 1) (b - 1)
      (by omega) (by omega)
  generalize scanUp (fun k => less (read d0 k) (read d0 a)) (b - 1 + 1 - (a + 1)) (a + 1) (b - 1)
    = i' at *
  obtain ⟨d1, d2, d3, d4⟩ :=
    scanDown_spec (fun k => !less (read d0 k) (read d0 a)) (b - 1 + 1 - i') i' (b - 1)
      (by omega) u2 (by omega)
  generalize scanDown (fun k => !less (read d0 k) (read d0 a)) (b - 1 + 1 - i') i' (b - 1)
    = j' at *
  simp only [hless _ _, hless.eq_false, Bool.not_eq_true', Bool.not_eq_false'] at u3 u4 d3 d4
  have A1 : ∀ k, a < k → k < i' → key (read d0 k) < key (read d0 a) :=
    fun k hk1 hk2 => u3 k (by omega) hk2
  have A2 : ∀ k, j' < k → k < b → key (read d0 a) ≤ key (read d0 k) :=
    fun k hk1 hk2 => d3 k hk1 (by omega)
  split
  · obtain ⟨f1, f2, f3⟩ := partition_finish key d0 a b j' hlen0 (by omega) (by omega)
      (fun k hk1 hk2 => A1 k hk1 (by omega)) A2
    dsimp only
    exact ⟨hsw0.trans f1, by omega, by omega, f2, f3⟩
  · rename_i hc
    have e1 := u4 (by omega)
    have e2 := d4 (by omega)
    have hne : i' ≠ j' := by
      intro e; subst e; omega
    have hrd := read_swap d0 (i := i') (j := j') (by omega) (by omega)
    have hsw : RangePerm a b d0 (swap d0 i' j') :=
      RangePerm.swap d0 hlen0 (by omega) (by omega) (by omega) (by omega)
    have hra : read (swap d0 i' j') a = read d0 a := by
      rw [hrd]; rw [if_neg (by omega), if_neg (by omega)]
    obtain ⟨q1, q2, q3, q4, q5⟩ := partitionLoop_spec hless a b (j' + 1 - i')
      (swap d0 i' j') (i' + 1) (j' - 1) (by omega) (by omega)
      (by omega) (by omega) (by rw [length_swap]; exact hlen0)
      (by
        intro k hk1 hk2
        rw [hra, hrd]
        have := A1 k hk1
        split_ifs <;> (try subst_vars) <;> omega)
      (by
        intro k hk1 hk2
        rw [hra, hrd]
        have := A2 k
        split_ifs <;> (try subst_vars) <;> omega)
    have hra' : read (partitionLoop less a (j' + 1 - i') (swap d0 i' j') (i' + 1) (j' - 1)).1 a
        = read (swap d0 i' j') a := q1.read_outside (Or.inl (by omega))
    generalize partitionLoop less a (j' + 1 - i') (swap d0 i' j') (i' + 1) (j' - 1) = r at *
    rw [← hra'] at q4 q5
    obtain ⟨f1, f2, f3⟩ := partition_finish key r.1 a b r.2
      (by rw [q1.length_eq, length_swap]; exact hlen0) q2 q3 q4 q5
    dsimp only
    exact ⟨(hsw0.trans hsw).trans (((q1.mono (by omega) le_rfl)).trans f1), q2, q3, f2, f3⟩


theorem partitionEqualLoop_spec {less : α → α → Bool} {key : α → Nat} (hless : LessKey less key)
    (a b : Nat) : ∀ (n : Nat) (data : List α) (i j : Nat), j + 1 ≤ i + n → a + 1 ≤ i →
      i ≤ j + 1 → j < b → b ≤ data.length →
      (∀ k, a ≤ k → k < i → key (read data k) ≤ key (read data a)) →
      (∀ k, j < k → k < b → key (read data a) < key (read data k)) →
      RangePerm (a + 1) b data (partitionEqualLoop less a n data i j).1 ∧
        a + 1 ≤ (partitionEqualLoop less a n data i j).2 ∧
        (partitionEqualLoop less a n data i j).2 ≤ b ∧
        (∀ k, a ≤ k → k < (partitionEqualLoop less a n data i j).2 →
          key (read (partitionEqualLoop less a n data i j).1 k) ≤ key (read data a)) ∧
        (∀ k, (partitionEqualLoop less a n data i j).2 ≤ k → k < b →
          key (read data a) < key (read (partitionEqualLoop less a n data i j).1 k)) := by
  intro n
  induction n with
  | zero =>
    intro data i j h1 h2 h3 h4 _ h6 h7
    simp only [partitionEqualLoop]
    exact ⟨RangePerm.refl _ _ _, h2, by omega, h6, fun k hk1 hk2 => h7 k (by omega) hk2⟩
  | succ n ih =>
    intro data i j h1 h2 h3 h4 h5 h6 h7
    rw [partitionEqualLoop]
    obtain ⟨u1, u2, u3, u4⟩ :=
      scanUp_spec (fun k => !less (read data a) (read data k)) (j + 1 - i) i j (by omega) h3
    generalize scanUp (fun k => !less (read data a) (read data k)) (j + 1 - i) i j = i' at *
    obtain ⟨d1, d2, d3, d4⟩ :=
      scanDown_spec (fun k => less (read data a) (read data k)) (j + 1 - i') i' j
        (by omega) u2 (by omega)
    generalize scanDown (fun k => less (read data a) (read data k)) (j + 1 - i') i' j = j' at *
    simp only [hless _ _, hless.eq_false, Bool.not_eq_true', Bool.not_eq_false'] at u3 u4 d3 d4
    have A1 : ∀ k, a ≤ k → k < i' → key (read data k) ≤ key (read data a) := by
      intro k hk1 hk2
      by_cases e : k < i
      · exact h6 k hk1 e
      · exact u3 k (by omega) hk2
    have A2 : ∀ k, j' < k → k < b → key (read data a) < key (read data k) := by
      intro k hk1 hk2
      by_cases e : j < k
      · exact h7 k e hk2
      · exact d3 k hk1 (by omega)
    split
    · exact ⟨RangePerm.refl _ _ _, by omega, by omega, A1, fun k hk1 hk2 => A2 k (by omega) hk2⟩
    · rename_i hc
      have e1 := u4 (by omega)
      have e2 := d4 (by omega)
      have hne : i' ≠ j' := by
        intro e; subst e; omega
      have hrd := read_swap data (i := i') (j := j') (by omega) (by omega)
      have hsw : RangePerm (a + 1) b data (swap data i' j') :=
        RangePerm.swap data h5 (by omega) (by omega) (by omega) (by omega)
      have hra : read (swap data i' j') a = read data a := by
        rw [hrd]; rw [if_neg (by omega), if_neg (by omega)]
      obtain ⟨q1, q2, q3, q4, q5⟩ := ih (swap data i' j') (i' + 1) (j' - 1) (by omega) (by omega)
        (by omega) (by omega) (by rw [length_swap]; exact h5)
        (by
          intro k hk1 hk2
          rw [hra, hrd]
          have := A1 k hk1
          split_ifs <;> (try subst_vars) <;> omega)
        (by
          intro k hk1 hk2
          rw [hra, hrd]
          have := A2 k
          split_ifs <;> (try subst_vars) <;> omega)
      rw [hra] at q4 q5
      exact ⟨hsw.trans q1, q2, q3, q4, q5⟩

theorem partitionEqual_spec {less : α → α → Bool} {key : α → Nat} (hless : LessKey less key)
    (data : List α) (a b pivot : Nat) (hp1 : a ≤ pivot) (hp2 : pivot < b)
    (hb : b ≤ data.length) :
    RangePerm a b data (partitionEqualLessFunc less data a b pivot).1 ∧
      a + 1 ≤ (partitionEqualLessFunc less data a b pivot).2 ∧
      (partitionEqualLessFunc less data a b pivot).2 ≤ b ∧
      (∀ k, a ≤ k → k < (partitionEqualLessFunc less data a b pivot).2 →
        key (read (partitionEqualLessFunc less data a b pivot).1 k) ≤ key (read data pivot)) ∧
      (∀ k, (partitionEqualLessFunc less data a b pivot).2 ≤ k → k < b →
        key (read data pivot) < key (read (partitionEqualLessFunc less data a b pivot).1 k)) := by
  unfold partitionEqualLessFunc
  have hsw0 : RangePerm a b data (swap data a pivot) :=
    RangePerm.swap data hb le_rfl (by omega) hp1 hp2
  have hlen0 : b ≤ (swap data a pivot).length := by rw [length_swap]; exact hb
  have hra : read (swap data a pivot) a = read data pivot := by
    rw [read_swap data (by omega) (by omega)]
    split_ifs <;> (try subst_vars) <;> first | rfl | omega
  generalize swap data a pivot = d0 at *
  simp only []
  obtain ⟨q1, q2, q3, q4, q5⟩ := partitionEqualLoop_spec hless a b (b - a) d0 (a + 1) (b - 1)
    (by omega) le_rfl (by omega) (by omega) hlen0
    (fun k hk1 hk2 => by
      have : k = a := by omega
      subst this; exact le_rfl)
    (fun k hk1 hk2 => by omega)
  rw [hra] at q4 q5
  exact ⟨hsw0.trans (q1.mono (by omega) le_rfl), q2, q3, q4, q5⟩

theorem read_swap_cases (data : List α) {i j : Nat} (hi : i < data.length) (hj : j < data.length)
    (k : Nat) :
    (k = j ∧ read (swap data i j) k = read data i) ∨
      (k ≠ j ∧ k = i ∧ read (swap data i j) k = read data j) ∨
      (k ≠ j ∧ k ≠ i ∧ read (swap data i j) k = read data k) := by
  rw [read_swap data hi hj]
  by_cases h1 : k = j
  · exact Or.inl ⟨h1, by rw [if_pos h1]⟩
  · by_cases h2 : k = i
    · exact Or.inr (Or.inl ⟨h1, h2, by rw [if_neg h1, if_pos h2]⟩)
    · exact Or.inr (Or.inr ⟨h1, h2, by rw [if_neg h1, if_neg h2]⟩)

theorem key_read_congr {key : α → Nat} {data : List α} {x y x' y' : Nat}
    (h : key (read data x') ≤ key (read data y')) (ex : x = x') (ey : y = y') :
    key (read data x) ≤ key (read data y) := by
  subst ex ey; exact h

theorem siftDown_child {less : α → α → Bool} {key : α → Nat} (hless : LessKey less key)
    (data : List α) (hi first root : Nat) (hch : 2 * root + 1 < hi) :
    ∃ cs, (if (decide (2 * root + 1 + 1 < hi) &&
          less (read data (first + (2 * root + 1))) (read data (first + (2 * root + 1) + 1))) = true
        then 2 * root + 1 + 1 else 2 * root + 1) = cs ∧
      (cs = 2 * root + 1 ∨ cs = 2 * root + 2) ∧ cs < hi ∧
      ∀ c x y, (c = 2 * root + 1 ∨ c = 2 * root + 2) → c < hi → x = first + c → y = first + cs →
        key (read data x) ≤ key (read data y) := by
  split
  · rename_i h
    simp only [Bool.and_eq_true, decide_eq_true_eq, hless _ _] at h
    refine ⟨_, rfl, Or.inr rfl, h.1, fun c x y hc hc' hx hy => ?_⟩
    rcases hc with hc | hc
    · exact key_read_congr (le_of_lt h.2) (by omega) (by omega)
    · have : x = y := by omega
      subst this; exact le_rfl
  · rename_i h
    simp only [Bool.and_eq_true, decide_eq_true_eq, hless _ _, not_and, not_lt] at h
    refine ⟨_, rfl, Or.inl rfl, hch, fun c x y hc hc' hx hy => ?_⟩
    rcases hc with hc | hc
    · have : x = y := by omega
      subst this; exact le_rfl
    · exact key_read_congr (h (by omega)) (by omega) (by omega)

theorem siftDownLoop_spec {less : α → α → Bool} {key : α → Nat} (hless : LessKey less key)
    (hi first lo : Nat) : ∀ (n root : Nat) (data : List α), hi ≤ root + n → lo ≤ root →
      first + hi ≤ data.length →
      (∀ r, lo ≤ r → r ≠ root → HeapAt key data first hi r) →
      (∀ p c x y, lo ≤ p → (root = 2 * p + 1 ∨ root = 2 * p + 2) →
        (c = 2 * root + 1 ∨ c = 2 * root + 2) → c < hi → x = first + c → y = first + p →
        key (read data x) ≤ key (read data y)) →
      RangePerm (first + root) (first + hi) data (siftDownLoop less hi first n root data) ∧
        ∀ r, lo ≤ r → HeapAt key (siftDownLoop less hi first n root data) first hi r := by
  intro n
  induction n with
  | zero =>
    intro root data h1 h2 h3 H G
    simp only [siftDownLoop]
    refine ⟨RangePerm.refl _ _ _, fun r hr => ?_⟩
    by_cases e : r = root
    · intro c x y hc hc' _ _; omega
    · exact H r hr e
  | succ n ih =>
    intro root data h1 h2 h3 H G
    rw [siftDownLoop]
    dsimp only
    split
    · rename_i hch
      refine ⟨RangePerm.refl _ _ _, fun r hr => ?_⟩
      by_cases e : r = root
      · intro c x y hc hc' _ _; omega
      · exact H r hr e
    · rename_i hch
      obtain ⟨cs, hcs, hcs1, hcs2, hcs3⟩ := siftDown_child hless data hi first root (by omega)
      rw [hcs]
      split
      · rename_i hl
        simp only [hless.eq_false, Bool.not_eq_true'] at hl
        refine ⟨RangePerm.refl _ _ _, fun r hr => ?_⟩
        by_cases e : r = root
        · intro c x y hc hc' hx hy
          subst e
          exact le_trans (hcs3 c x (first + cs) hc hc' hx rfl)
            (key_read_congr hl rfl (by omega))
        · exact H r hr e
      · rename_i hl
        simp only [hless.eq_false, Bool.not_eq_true', Bool.not_eq_false, hless _ _] at hl
        have hI : first + root < data.length := by omega
        have hJ : first + cs < data.length := by omega
        have hsw : RangePerm (first + root) (first + hi) data
            (swap data (first + root) (first + cs)) :=
          RangePerm.swap data h3 le_rfl (by omega) (by omega) (by omega)
        obtain ⟨p, q⟩ := ih cs (swap data (first + root) (first + cs)) (by omega) (by omega)
          (by rw [length_swap]; exact h3)
          (by
            intro r hr hne c x y hc hc' hx hy
            rcases read_swap_cases data hI hJ x with ⟨hx1, ex⟩ | ⟨hx1, hx2, ex⟩ | ⟨hx1, hx2, ex⟩ <;>
            rcases read_swap_cases data hI hJ y with ⟨hy1, ey⟩ | ⟨hy1, hy2, ey⟩ | ⟨hy1, hy2, ey⟩ <;>
            rw [ex, ey] <;>
            first
              | omega
              | exact le_of_lt hl
              | exact hcs3 c x _ (by omega) (by omega) (by omega) rfl
              | exact G r cs _ _ hr (by omega) hcs1 hcs2 rfl (by omega)
              | exact H r hr (by omega) c x y hc hc' hx hy)
          (by
            intro p c x y hp hp' hc hc' hx hy
            rcases read_swap_cases data hI hJ x with ⟨hx1, ex⟩ | ⟨hx1, hx2, ex⟩ | ⟨hx1, hx2, ex⟩ <;>
            rcases read_swap_cases data hI hJ y with ⟨hy1, ey⟩ | ⟨hy1, hy2, ey⟩ | ⟨hy1, hy2, ey⟩ <;>
            rw [ex, ey] <;>
            first
              | omega
              | exact H cs (by omega) (by omega) c x _ hc hc' hx rfl)
        exact ⟨hsw.trans (p.mono (by omega) le_rfl), q⟩

theorem siftDown_spec {less : α → α → Bool} {key : α → Nat} (hless : LessKey less key)
    (data : List α) (lo hi first : Nat) (hlen : first + hi ≤ data.length)
    (H : ∀ r, lo < r → HeapAt key data first hi r) :
    RangePerm (first + lo) (first + hi) data (siftDownLessFunc less data lo hi first) ∧
      ∀ r, lo ≤ r → HeapAt key (siftDownLessFunc less data lo hi first) first hi r := by
  unfold siftDownLessFunc
  exact siftDownLoop_spec hless hi first lo hi lo data (by omega) le_rfl hlen
    (fun r hr hne => H r (by omega)) (fun p c x y hp hp' _ _ _ _ => by omega)

theorem heapBuild_spec {less : α → α → Bool} {key : α → Nat} (hless : LessKey less key)
    (hi first : Nat) : ∀ (n : Nat) (data : List α), first + hi ≤ data.length →
      (∀ r, n ≤ r → HeapAt key data first hi r) →
      RangePerm first (first + hi) data (heapBuild less hi first n data) ∧
        ∀ r, HeapAt key (heapBuild less hi first n data) first hi r := by
  intro n
  induction n with
  | zero =>
    intro data _ H
    exact ⟨RangePerm.refl _ _ _, fun r => H r (Nat.zero_le r)⟩
  | succ i ih =>
    intro data hlen H
    rw [heapBuild]
    obtain ⟨p, q⟩ := siftDown_spec hless data i hi first hlen (fun r hr => H r (by omega))
    obtain ⟨p', q'⟩ := ih _ (by rw [p.length_eq]; exact hlen) q
    exact ⟨(p.mono (by omega) le_rfl).trans p', q'⟩

theorem heap_root_max {key : α → Nat} (data : List α) (first n : Nat)
    (H : ∀ r, HeapAt key data first n r) :
    ∀ k x, k < n → x = first + k → key (read data x) ≤ key (read data first) := by
  intro k
  induction k using Nat.strong_induction_on with
  | _ k ih =>
    intro x hk hx
    by_cases h0 : k = 0
    · subst h0; subst hx; exact le_rfl
    · have h1 := H ((k - 1) / 2) k x (first + (k - 1) / 2) (by omega) hk hx rfl
      exact le_trans h1 (ih ((k - 1) / 2) (by omega) _ (by omega) rfl)

theorem heapPop_spec {less : α → α → Bool} {key : α → Nat} (hless : LessKey less key)
    (hi first : Nat) : ∀ (n : Nat) (data : List α), first + hi ≤ data.length → n ≤ hi →
      (∀ r, HeapAt key data first n r) →
      SortedOn key (first + n) (first + hi) data →
      (∀ k x y, k < n → n < hi → x = first + k → y = first + n →
        key (read data x) ≤ key (read data y)) →
      RangePerm first (first + hi) data (heapPop less first n data) ∧
        SortedOn key first (first + hi) (heapPop less first n data) := by
  intro n
  induction n with
  | zero =>
    intro data _ _ _ S _
    exact ⟨RangePerm.refl _ _ _, S⟩
  | succ i ih =>
    intro data hlen hn H S B
    rw [heapPop]
    have hI : first < data.length := by omega
    have hJ : first + i < data.length := by omega
    have hsw : RangePerm first (first + hi) data (swap data first (first + i)) :=
      RangePerm.swap data hlen le_rfl (by omega) (by omega) (by omega)
    have hmax := heap_root_max data first (i + 1) H
    have hlen1 : first + i ≤ (swap data first (first + i)).length := by
      rw [length_swap]; omega
    obtain ⟨p, q⟩ := siftDown_spec hless (swap data first (first + i)) 0 i first hlen1
      (by
        intro r hr c x y hc hc' hx hy
        rcases read_swap_cases data hI hJ x with ⟨hx1, ex⟩ | ⟨hx1, hx2, ex⟩ | ⟨hx1, hx2, ex⟩ <;>
        rcases read_swap_cases data hI hJ y with ⟨hy1, ey⟩ | ⟨hy1, hy2, ey⟩ | ⟨hy1, hy2, ey⟩ <;>
        rw [ex, ey] <;>
        first
          | omega
          | exact H r c x y hc (by omega) hx hy)
    have p0 : RangePerm first (first + i) (swap data first (first + i))
        (siftDownLessFunc less (swap data first (first + i)) 0 i first) := by
      simpa using p
    have hout : ∀ m, first + i ≤ m →
        read (siftDownLessFunc less (swap data first (first + i)) 0 i first) m =
          read (swap data first (first + i)) m := fun m hm => p0.read_outside (Or.inr hm)
    have hbnd : ∀ k, first ≤ k → k < first + i →
        key (read (siftDownLessFunc less (swap data first (first + i)) 0 i first) k) ≤
          key (read data first) := by
      apply p0.forall_range (P := fun v => key v ≤ key (read data first))
      intro k hk1 hk2
      rcases read_swap_cases data hI hJ k with ⟨hx1, ex⟩ | ⟨hx1, hx2, ex⟩ | ⟨hx1, hx2, ex⟩ <;>
      rw [ex] <;>
      first
        | omega
        | exact le_rfl
        | exact hmax i _ (by omega) rfl
        | exact hmax (k - first) k (by omega) (by omega)
    have hlast : read (swap data first (first + i)) (first + i) = read data first := by
      rcases read_swap_cases data hI hJ (first + i) with ⟨hx1, ex⟩ | ⟨hx1, hx2, ex⟩ | ⟨hx1, hx2, ex⟩
      · exact ex
      · have : i = 0 := by omega
        subst this
        simpa using ex
      · omega
    obtain ⟨p', q'⟩ := ih _ (by rw [p.length_eq, length_swap]; exact hlen) (by omega)
      (fun r => q r (Nat.zero_le r))
      (by
        intro m hm1 hm2
        rw [hout m hm1, hout (m + 1) (by omega)]
        by_cases e : m = first + i
        · subst e
          rw [hlast]
          rcases read_swap_cases data hI hJ (first + i + 1) with
            ⟨hx1, ex⟩ | ⟨hx1, hx2, ex⟩ | ⟨hx1, hx2, ex⟩
          · omega
          · omega
          · rw [ex]
            exact B 0 _ _ (by omega) (by omega) rfl (by omega)
        · rcases read_swap_cases data hI hJ m with ⟨hx1, ex⟩ | ⟨hx1, hx2, ex⟩ | ⟨hx1, hx2, ex⟩ <;>
          rcases read_swap_cases data hI hJ (m + 1) with
            ⟨hy1, ey⟩ | ⟨hy1, hy2, ey⟩ | ⟨hy1, hy2, ey⟩ <;>
          rw [ex, ey] <;>
          first
            | omega
            | exact S m (by omega) hm2)
      (by
        intro k x y hk hi' hx hy
        rw [hy, hout (first + i) le_rfl, hlast]
        exact hbnd x (by omega) (by omega))
    exact ⟨hsw.trans ((p0.mono le_rfl (by omega)).trans p'), q'⟩

theorem heapSort_spec {less : α → α → Bool} {key : α → Nat} (hless : LessKey less key)
    (data : List α) (a b : Nat) (hab : a ≤ b) (hb : b ≤ data.length) :
    RangePerm a b data (heapSortLessFunc less data a b) ∧
      SortedOn key a b (heapSortLessFunc less data a b) := by
  unfold heapSortLessFunc
  dsimp only
  have e : a + (b - a) = b := by omega
  obtain ⟨p, q⟩ := heapBuild_spec hless (b - a) a ((b - a - 1) / 2 + 1) data (by omega)
    (fun r hr c x y hc hc' _ _ => by omega)
  obtain ⟨p', q'⟩ := heapPop_spec hless (b - a) a (b - a) _
    (by rw [p.length_eq]; omega) le_rfl q (fun i _ _ => by omega)
    (fun k x y _ h _ _ => by omega)
  rw [e] at p p' q'
  exact ⟨p.trans p', q'⟩

theorem two_pow_bitsLenAux_le (fuel : Nat) : ∀ n, 1 ≤ n → 2 ^ bitsLenAux fuel n ≤ 2 * n := by
  induction fuel with
  | zero => intro n hn; simp only [bitsLenAux, pow_zero]; omega
  | succ fuel ih =>
    intro n hn
    rw [bitsLenAux, if_neg (by omega)]
    by_cases h : n / 2 = 0
    · have e : bitsLenAux fuel (n / 2) = 0 := by
        rw [h]; cases fuel <;> simp [bitsLenAux]
      rw [e]; simp only [add_zero, pow_one]; omega
    · have := ih (n / 2) (by omega)
      rw [pow_add, pow_one]
      omega

theorem nextPowerOfTwo_le (length : Nat) (h : 1 ≤ length) : nextPowerOfTwo length ≤ 2 * length :=
  two_pow_bitsLenAux_le length length h

theorem breakPatternsLoop_spec (a b length modulus idx : Nat) (hl : length = b - a)
    (h8 : 8 ≤ length) (hm : modulus ≤ 2 * length) (hidx : idx = a + (length / 4) * 2 - 1) :
    ∀ (n i random : Nat) (data : List α), i + n ≤ 3 → b ≤ data.length →
      RangePerm a b data (breakPatternsLoop a length modulus idx n i random data) := by
  intro n
  induction n with
  | zero => intro i random data _ _; exact RangePerm.refl _ _ _
  | succ n ih =>
    intro i random data hin hb
    rw [breakPatternsLoop]
    have hand : xorshiftNext random &&& (modulus - 1) ≤ modulus - 1 := Nat.and_le_right
    generalize xorshiftNext random &&& (modulus - 1) = other at hand ⊢
    have hsw : RangePerm a b data (swap data (idx + i)
        (a + if other ≥ length then other - length else other)) := by
      apply RangePerm.swap data hb
      · omega
      · omega
      · omega
      · split <;> omega
    exact hsw.trans (ih _ _ _ (by omega) (by rw [length_swap]; exact hb))

theorem breakPatterns_spec (data : List α) (a b : Nat) (hb : b ≤ data.length) :
    RangePerm a b data (breakPatternsLessFunc data a b) := by
  unfold breakPatternsLessFunc
  dsimp only
  split
  · rename_i h
    exact breakPatternsLoop_spec a b (b - a) _ _ rfl h (nextPowerOfTwo_le _ (by omega)) rfl
      3 0 _ data le_rfl hb
  · exact RangePerm.refl _ _ _

set_option maxRecDepth 100000 in
/-- On the slice `0..15` with `a = 2`, `b = 16` the three swaps of
`breakPatterns_func` touch the left indices 7, 8, 9 (`idx = 2 + (14/4)*2 - 1 = 7`)
and the right indices 2, 11, 2. -/
theorem breakPatternsLessFunc_example :
    breakPatternsLessFunc (List.range 16) 2 16
      = [0, 1, 9, 3, 4, 5, 6, 2, 11, 7, 10, 8, 12, 13, 14, 15] := by
  decide

theorem reverseLoop_spec (a b : Nat) : ∀ (n i j : Nat) (data : List α), a ≤ i → j < b →
    b ≤ data.length → RangePerm a b data (reverseLoop n i j data) := by
  intro n
  induction n with
  | zero => intro i j data _ _ _; exact RangePerm.refl _ _ _
  | succ n ih =>
    intro i j data hi hj hb
    rw [reverseLoop]
    split
    · have hsw : RangePerm a b data (swap data i j) :=
        RangePerm.swap data hb hi (by omega) (by omega) hj
      exact hsw.trans (ih _ _ _ (by omega) (by omega) (by rw [length_swap]; exact hb))
    · exact RangePerm.refl _ _ _

theorem reverseRange_spec (data : List α) (a b : Nat) (hab : a < b) (hb : b ≤ data.length) :
    RangePerm a b data (reverseRangeLessFunc data a b) :=
  reverseLoop_spec a b _ _ _ data le_rfl (by omega) hb

theorem median_mem (less : α → α → Bool) (data : List α) (a b c swaps : Nat) :
    (medianLessFunc less data a b c swaps).1 = a ∨ (medianLessFunc less data a b c swaps).1 = b ∨
      (medianLessFunc less data a b c swaps).1 = c := by
  unfold medianLessFunc order2LessFunc
  dsimp only
  split_ifs <;> simp

theorem medianAdjacent_mem (less : α → α → Bool) (data : List α) (a swaps : Nat) :
    (medianAdjacentLessFunc less data a swaps).1 = a - 1 ∨
      (medianAdjacentLessFunc less data a swaps).1 = a ∨
      (medianAdjacentLessFunc less data a swaps).1 = a + 1 :=
  median_mem less data (a - 1) a (a + 1) swaps

theorem choosePivot_range (less : α → α → Bool) (data : List α) (a b : Nat) (h : 12 < b - a) :
    a ≤ (choosePivotLessFunc less data a b).1 ∧ (choosePivotLessFunc less data a b).1 < b := by
  have key : ∀ r : Nat × Nat, (a ≤ r.1 ∧ r.1 < b) →
      a ≤ (if r.2 = 0 then (r.1, sortedHint.increasingHint)
        else if r.2 = 12 then (r.1, sortedHint.decreasingHint)
        else (r.1, sortedHint.unknownHint)).1 ∧
      (if r.2 = 0 then (r.1, sortedHint.increasingHint)
        else if r.2 = 12 then (r.1, sortedHint.decreasingHint)
        else (r.1, sortedHint.unknownHint)).1 < b := by
    intro r hr
    split_ifs <;> exact hr
  unfold choosePivotLessFunc
  dsimp only
  apply key
  rw [if_pos (by omega)]
  split
  · rename_i h50
    have e1 := medianAdjacent_mem less data (a + (b - a) / 4 * 1) 0
    generalize medianAdjacentLessFunc less data (a + (b - a) / 4 * 1) 0 = ri at *
    have e2 := medianAdjacent_mem less data (a + (b - a) / 4 * 2) ri.2
    generalize medianAdjacentLessFunc less data (a + (b - a) / 4 * 2) ri.2 = rj at *
    have e3 := medianAdjacent_mem less data (a + (b - a) / 4 * 3) rj.2
    generalize medianAdjacentLessFunc less data (a + (b - a) / 4 * 3) rj.2 = rk at *
    have e4 := median_mem less data ri.1 rj.1 rk.1 rk.2
    omega
  · have e4 := median_mem less data (a + (b - a) / 4 * 1) (a + (b - a) / 4 * 2)
      (a + (b - a) / 4 * 3) 0
    omega

theorem LeftBound.of_rangePerm {key : α → Nat} {a b : Nat} {d d' : List α} (h : LeftBound key a b d)
    (p : RangePerm a b d d') : LeftBound key a b d' := by
  intro m k hm hk1 hk2
  rw [p.read_outside (Or.inl (by omega))]
  exact p.forall_range (P := fun v => key (read d m) ≤ key v)
    (fun k' h1 h2 => h m k' hm h1 h2) k hk1 hk2

theorem LeftBound.of_le {key : α → Nat} {a b b' : Nat} {d : List α} (h : LeftBound key a b d)
    (hb : b' ≤ b) : LeftBound key a b' d :=
  fun m k hm hk1 hk2 => h m k hm hk1 (by omega)

theorem shiftLeft_spec {less : α → α → Bool} {key : α → Nat} (hless : LessKey less key)
    (a top : Nat) : ∀ (j : Nat) (data : List α), a ≤ j → j ≤ top → top < data.length →
      (∀ k, a ≤ k → k + 1 ≤ top → k + 1 ≠ j → key (read data k) ≤ key (read data (k + 1))) →
      (∀ m, m + 1 = j → a ≤ m → j < top → key (read data m) ≤ key (read data (j + 1))) →
      LeftBound key a (top + 1) data →
      RangePerm a (top + 1) data (shiftLeft less j data) ∧
        SortedOn key a (top + 1) (shiftLeft less j data) := by
  intro j
  induction j with
  | zero =>
    intro data _ _ _ h1 _ _
    exact ⟨RangePerm.refl _ _ _, fun k hk hk' => h1 k hk (by omega) (by omega)⟩
  | succ j ih =>
    intro data haj hjt hlen h1 h2 hL
    rw [shiftLeft]
    split
    · rename_i hc
      simp only [hless.eq_false, Bool.not_eq_true'] at hc
      refine ⟨RangePerm.refl _ _ _, fun k hk hk' => ?_⟩
      by_cases e : k = j
      · subst e; exact hc
      · exact h1 k hk (by omega) (by omega)
    · rename_i hc
      simp only [hless.eq_false, Bool.not_eq_true', Bool.not_eq_false, hless _ _] at hc
      have haj' : a ≤ j := by
        by_contra hcon
        have := hL j (j + 1) (by omega) (by omega) (by omega)
        omega
      have hsw : RangePerm a (top + 1) data (swap data (j + 1) j) :=
        RangePerm.swap data (by omega) (by omega) (by omega) (by omega) (by omega)
      have hrd := read_swap data (i := j + 1) (j := j) (by omega) (by omega)
      obtain ⟨p, s⟩ := ih (swap data (j + 1) j) haj' (by omega)
        (by rw [length_swap]; exact hlen)
        (by
          intro k hk1 hk2 hk3
          rw [hrd, hrd]
          have e1 := h1 k hk1 hk2
          have e2 := h2 j rfl
          split_ifs <;> (try subst_vars) <;> omega)
        (by
          intro m hm1 hm2 hm3
          rw [hrd, hrd]
          have e1 := h1 m hm2 (by omega) (by omega)
          subst hm1
          split_ifs <;> omega)
        (hL.of_rangePerm hsw)
      exact ⟨hsw.trans p, s⟩

theorem shiftRight_spec (less : α → α → Bool) (b : Nat) : ∀ (n j : Nat) (data : List α),
    1 ≤ j → b ≤ data.length → RangePerm (j - 1) b data (shiftRight less b n j data) := by
  intro n
  induction n with
  | zero => intro j data _ _; exact RangePerm.refl _ _ _
  | succ n ih =>
    intro j data hj hb
    rw [shiftRight]
    split
    · split
      · exact RangePerm.refl _ _ _
      · have hsw : RangePerm (j - 1) b data (swap data j (j - 1)) :=
          RangePerm.swap data hb (by omega) (by omega) le_rfl (by omega)
        have := ih (j + 1) (swap data j (j - 1)) (by omega) (by rw [length_swap]; exact hb)
        exact hsw.trans (this.mono (by omega) le_rfl)
    · exact RangePerm.refl _ _ _

theorem partialInsertionLoop_spec {less : α → α → Bool} {key : α → Nat}
    (hless : LessKey less key) (a b : Nat) : ∀ (steps i : Nat) (data : List α), a < i → i ≤ b →
      b ≤ data.length → SortedOn key a i data → LeftBound key a b data →
      RangePerm a b data (partialInsertionLoop less a b steps i data).1 ∧
        ((partialInsertionLoop less a b steps i data).2 = true →
          SortedOn key a b (partialInsertionLoop less a b steps i data).1) := by
  intro steps
  induction steps with
  | zero =>
    intro i data _ _ _ _ _
    simp only [partialInsertionLoop]
    exact ⟨RangePerm.refl _ _ _, fun h => by simp at h⟩
  | succ steps ih =>
    intro i data hai hib hb hS hL
    rw [partialInsertionLoop]
    obtain ⟨u1, u2, u3, u4⟩ :=
      scanUp_spec (fun k => !less (read data k) (read data (k - 1))) (b - i) i (b - 1)
        (by omega) (by omega)
    generalize scanUp (fun k => !less (read data k) (read data (k - 1))) (b - i) i (b - 1) = i'
      at *
    simp only [hless _ _, hless.eq_false, Bool.not_eq_true', Bool.not_eq_false'] at u3 u4
    have hS' : SortedOn key a i' data := by
      intro k hk1 hk2
      by_cases e : k + 1 < i
      · exact hS k hk1 e
      · exact key_read_congr (u3 (k + 1) (by omega) hk2) (by omega) rfl
    dsimp only
    split
    · rename_i hc
      subst hc
      exact ⟨RangePerm.refl _ _ _, fun _ => hS'⟩
    · rename_i hc
      split
      · exact ⟨RangePerm.refl _ _ _, fun h => by simp at h⟩
      · have hi'b : i' < b := by omega
        have hsw : RangePerm a b data (swap data i' (i' - 1)) :=
          RangePerm.swap data hb (by omega) hi'b (by omega) (by omega)
        have hrd := read_swap data (i := i') (j := i' - 1) (by omega) (by omega)
        generalize hd1 : swap data i' (i' - 1) = d1 at *
        have hlen1 : b ≤ d1.length := by rw [hsw.length_eq]; exact hb
        have hL1 : LeftBound key a b d1 := hL.of_rangePerm hsw
        -- left shift
        have h2 : RangePerm a b d1 (if i' - a ≥ 2 then shiftLeft less (i' - 1) d1 else d1) ∧
            SortedOn key a i' (if i' - a ≥ 2 then shiftLeft less (i' - 1) d1 else d1) := by
          split
          · have e : i' - 1 + 1 = i' := by omega
            have := shiftLeft_spec hless a (i' - 1) (i' - 1) d1 (by omega) le_rfl (by omega)
              (by
                intro k hk1 hk2 hk3
                rw [hrd, hrd]
                have := hS' k hk1 (by omega)
                split_ifs <;> (try subst_vars) <;> omega)
              (fun m _ _ hm => by omega)
              (hL1.of_le (by omega))
            rw [e] at this
            exact ⟨this.1.mono le_rfl (by omega), this.2⟩
          · exact ⟨RangePerm.refl _ _ _, fun k hk1 hk2 => by omega⟩
        generalize (if i' - a ≥ 2 then shiftLeft less (i' - 1) d1 else d1) = d2 at *
        obtain ⟨p2, s2⟩ := h2
        have hlen2 : b ≤ d2.length := by rw [p2.length_eq]; exact hlen1
        have h3 : RangePerm i' b d2
            (if b - i' ≥ 2 then shiftRight less b (b - (i' + 1)) (i' + 1) d2 else d2) := by
          split
          · have := shiftRight_spec less b (b - (i' + 1)) (i' + 1) d2 (by omega) hlen2
            simpa using this
          · exact RangePerm.refl _ _ _
        generalize (if b - i' ≥ 2 then shiftRight less b (b - (i' + 1)) (i' + 1) d2 else d2) = d3
          at *
        have p3 : RangePerm a b data d3 := (hsw.trans p2).trans (h3.mono (by omega) le_rfl)
        have s3 : SortedOn key a i' d3 := by
          intro k hk1 hk2
          rw [h3.read_outside (Or.inl (by omega)), h3.read_outside (Or.inl (by omega))]
          exact s2 k hk1 hk2
        obtain ⟨q1, q2⟩ := ih i' d3 (by omega) (by omega) (by rw [p3.length_eq]; exact hb) s3
          (hL.of_rangePerm p3)
        exact ⟨p3.trans q1, q2⟩

theorem partialInsertionSort_spec {less : α → α → Bool} {key : α → Nat}
    (hless : LessKey less key) (data : List α) (a b : Nat) (hab : a < b) (hb : b ≤ data.length)
    (hL : LeftBound key a b data) :
    RangePerm a b data (partialInsertionSortLessFunc less data a b).1 ∧
      ((partialInsertionSortLessFunc less data a b).2 = true →
        SortedOn key a b (partialInsertionSortLessFunc less data a b).1) :=
  partialInsertionLoop_spec hless a b 5 (a + 1) data (by omega) (by omega) hb
    (SortedOn.of_length_le data le_rfl) hL

theorem Pivoted.perm_left {key : α → Nat} {a mid b : Nat} {d d' : List α}
    (h : Pivoted key a mid b d) (p : RangePerm a mid d d') : Pivoted key a mid b d' := by
  have e : read d' mid = read d mid := p.read_outside (Or.inr le_rfl)
  refine ⟨fun k hk1 hk2 => ?_, fun k hk1 hk2 => ?_⟩
  · rw [e]
    exact p.forall_range (P := fun v => key v ≤ key (read d mid)) h.1 k hk1 hk2
  · rw [e, p.read_outside (Or.inr (by omega))]
    exact h.2 k hk1 hk2

theorem Pivoted.perm_right {key : α → Nat} {a mid b : Nat} {d d' : List α}
    (h : Pivoted key a mid b d) (p : RangePerm (mid + 1) b d d') : Pivoted key a mid b d' := by
  have e : read d' mid = read d mid := p.read_outside (Or.inl (by omega))
  refine ⟨fun k hk1 hk2 => ?_, fun k hk1 hk2 => ?_⟩
  · rw [e, p.read_outside (Or.inl (by omega))]
    exact h.1 k hk1 hk2
  · rw [e]
    exact p.forall_range (P := fun v => key (read d mid) ≤ key v)
      (fun k' h1 h2 => h.2 k' (by omega) h2) k (by omega) hk2

theorem Pivoted.sorted {key : α → Nat} {a mid b : Nat} {d : List α}
    (h : Pivoted key a mid b d) (s1 : SortedOn key a mid d) (s2 : SortedOn key (mid + 1) b d) :
    SortedOn key a b d := by
  intro i hi1 hi2
  by_cases e1 : i + 1 < mid
  · exact s1 i hi1 e1
  · by_cases e2 : i + 1 = mid
    · rw [e2]; exact h.1 i hi1 (by omega)
    · by_cases e3 : i = mid
      · rw [e3]; exact h.2 (mid + 1) (by omega) (by omega)
      · exact s2 i (by omega) hi2

theorem SortedOn.congr {key : α → Nat} {a b : Nat} {d d' : List α} (s : SortedOn key a b d)
    (h : ∀ k, a ≤ k → k < b → read d' k = read d k) : SortedOn key a b d' := by
  intro i hi1 hi2
  rw [h i hi1 (by omega), h (i + 1) (by omega) hi2]
  exact s i hi1 hi2

theorem pdqsort_spec {less : α → α → Bool} {key : α → Nat} (hless : LessKey less key) :
    ∀ (fuel : Nat) (data : List α) (a b limit : Nat) (wb wp : Bool), b - a ≤ fuel → a ≤ b →
      b ≤ data.length → LeftBound key a b data →
      RangePerm a b data (pdqsortLessFunc less fuel data a b limit wb wp) ∧
        SortedOn key a b (pdqsortLessFunc less fuel data a b limit wb wp) := by
  intro fuel
  induction fuel with
  | zero =>
    intro data a b limit wb wp hf hab hb hL
    rw [pdqsortLessFunc, if_pos (by omega)]
    exact insertionSort_spec hless data a b hb
  | succ fuel ih =>
    intro data a b limit wb wp hf hab hb hL
    suffices h : ∀ out, pdqsortLessFunc less (fuel + 1) data a b limit wb wp = out →
        RangePerm a b data out ∧ SortedOn key a b out from h _ rfl
    intro out
    rw [pdqsortLessFunc]
    split
    · intro hout; subst hout; exact insertionSort_spec hless data a b hb
    rename_i hlen
    split
    · intro hout; subst hout; exact heapSort_spec hless data a b hab hb
    rename_i hlim
    lift_lets
    intro data1 limit1 ph data2 pivot hint pis data3 pe pt mid leftLen rightLen balanceThreshold
    intro hout
    have h1 : RangePerm a b data data1 := by
      show RangePerm a b data (if (!wb) = true then breakPatternsLessFunc data a b else data)
      split
      · exact breakPatterns_spec data a b hb
      · exact RangePerm.refl _ _ _
    clear_value data1 limit1
    have hlen1 : b ≤ data1.length := by rw [h1.length_eq]; exact hb
    have hph : a ≤ ph.1 ∧ ph.1 < b := choosePivot_range less data1 a b (by omega)
    clear_value ph
    have h2 : RangePerm a b data1 data2 := by
      show RangePerm a b data1
        (if ph.2 = sortedHint.decreasingHint then reverseRangeLessFunc data1 a b else data1)
      split
      · exact reverseRange_spec data1 a b (by omega) hlen1
      · exact RangePerm.refl _ _ _
    have hpiv : a ≤ pivot ∧ pivot < b := by
      show a ≤ (if ph.2 = sortedHint.decreasingHint then b - 1 - (ph.1 - a) else ph.1) ∧
        (if ph.2 = sortedHint.decreasingHint then b - 1 - (ph.1 - a) else ph.1) < b
      split <;> omega
    clear_value data2 pivot hint
    have hlen2 : b ≤ data2.length := by rw [h2.length_eq]; exact hlen1
    have hL2 : LeftBound key a b data2 := (hL.of_rangePerm h1).of_rangePerm h2
    have h3 : RangePerm a b data2 pis.1 ∧ (pis.2 = true → SortedOn key a b pis.1) := by
      show RangePerm a b data2
          (if (wb && wp && decide (hint = sortedHint.increasingHint)) = true then
            partialInsertionSortLessFunc less data2 a b else (data2, false)).1 ∧
        ((if (wb && wp && decide (hint = sortedHint.increasingHint)) = true then
            partialInsertionSortLessFunc less data2 a b else (data2, false)).2 = true →
          SortedOn key a b
            (if (wb && wp && decide (hint = sortedHint.increasingHint)) = true then
              partialInsertionSortLessFunc less data2 a b else (data2, false)).1)
      split
      · exact partialInsertionSort_spec hless data2 a b (by omega) hlen2 hL2
      · exact ⟨RangePerm.refl _ _ _, fun h => by simp at h⟩
    clear_value pis
    obtain ⟨h3p, h3s⟩ := h3
    have hp3 : RangePerm a b data pis.1 := (h1.trans h2).trans h3p
    split at hout
    · rename_i hdone
      subst hout
      exact ⟨hp3, h3s hdone⟩
    rename_i hdone
    have hlen3 : b ≤ data3.length := by
      show b ≤ pis.1.length
      rw [hp3.length_eq]; exact hb
    have hL3 : LeftBound key a b data3 := hL.of_rangePerm hp3
    have hp3' : RangePerm a b data data3 := hp3
    clear_value data3
    split at hout
    · rename_i hc
      simp only [Bool.and_eq_true, decide_eq_true_eq, hless.eq_false, Bool.not_eq_true'] at hc
      obtain ⟨hc1, hc2⟩ := hc
      have hmin : ∀ k, a ≤ k → k < b → key (read data3 pivot) ≤ key (read data3 k) :=
        fun k hk1 hk2 => le_trans hc2 (hL3 (a - 1) k (by omega) hk1 hk2)
      obtain ⟨e1, e2, e3, e4, e5⟩ := partitionEqual_spec hless data3 a b pivot hpiv.1 hpiv.2 hlen3
      have e6 : ∀ k, a ≤ k → k < b → key (read data3 pivot) ≤ key (read pe.1 k) :=
        e1.forall_range (P := fun v => key (read data3 pivot) ≤ key v) hmin
      change RangePerm a b data3 pe.1 at e1
      change a + 1 ≤ pe.2 at e2
      change pe.2 ≤ b at e3
      change ∀ k, a ≤ k → k < pe.2 → key (read pe.1 k) ≤ key (read data3 pivot) at e4
      change ∀ k, pe.2 ≤ k → k < b → key (read data3 pivot) < key (read pe.1 k) at e5
      clear_value pe
      obtain ⟨q1, q2⟩ := ih pe.1 pe.2 b limit1 wb wp (by omega) e3
        (by rw [e1.length_eq]; exact hlen3)
        (fun m k hm hk1 hk2 => le_trans (e4 m (by omega) (by omega)) (le_of_lt (e5 k hk1 hk2)))
      rw [hout] at q1 q2
      refine ⟨(hp3'.trans e1).trans (q1.mono (by omega) le_rfl), ?_⟩
      have e5' : ∀ k, pe.2 ≤ k → k < b → key (read data3 pivot) < key (read out k) :=
        q1.forall_range (P := fun v => key (read data3 pivot) < key v) e5
      have e4' : ∀ k, a ≤ k → k < pe.2 → read out k = read pe.1 k :=
        fun k _ hk2 => q1.read_outside (Or.inl hk2)
      intro i hi1 hi2
      by_cases c1 : i + 1 < pe.2
      · rw [e4' i hi1 (by omega), e4' (i + 1) (by omega) c1]
        exact le_trans (e4 i hi1 (by omega)) (e6 (i + 1) (by omega) hi2)
      · by_cases c2 : i + 1 = pe.2
        · rw [e4' i hi1 (by omega)]
          exact le_trans (e4 i hi1 (by omega)) (le_of_lt (e5' (i + 1) (by omega) hi2))
        · exact q2 i (by omega) hi2
    · obtain ⟨e1, e2, e3, e4, e5⟩ := partition_spec hless data3 a b pivot hpiv.1 hpiv.2 hlen3
      change RangePerm a b data3 pt.1 at e1
      change a ≤ mid at e2
      change mid < b at e3
      have hpv : Pivoted key a mid b pt.1 :=
        ⟨fun k hk1 hk2 => le_of_lt (e4 k hk1 hk2), e5⟩
      have hleft : leftLen = mid - a := rfl
      have hright : rightLen = b - mid := rfl
      clear e4 e5
      clear_value mid leftLen rightLen balanceThreshold
      have hlenp : b ≤ pt.1.length := by rw [e1.length_eq]; exact hlen3
      have hLp : LeftBound key a b pt.1 := hL3.of_rangePerm e1
      clear_value pt
      split at hout
      · obtain ⟨q1, q2⟩ := ih pt.1 a mid limit1 true true (by omega) e2 (by omega)
          (hLp.of_le (by omega))
        generalize pdqsortLessFunc less fuel pt.1 a mid limit1 true true = dL at *
        have hpvL := hpv.perm_left q1
        obtain ⟨r1, r2⟩ := ih dL (mid + 1) b limit1 (decide (leftLen ≥ balanceThreshold)) pt.2.2
          (by omega) (by omega) (by rw [q1.length_eq]; exact hlenp)
          (fun m k hm hk1 hk2 => by
            have : m = mid := by omega
            subst this
            exact hpvL.2 k (by omega) hk2)
        rw [hout] at r1 r2
        refine ⟨((hp3'.trans e1).trans (q1.mono le_rfl (by omega))).trans
          (r1.mono (by omega) le_rfl), ?_⟩
        exact (hpvL.perm_right r1).sorted
          (q2.congr (fun k _ hk2 => r1.read_outside (Or.inl (by omega)))) r2
      · obtain ⟨q1, q2⟩ := ih pt.1 (mid + 1) b limit1 true true (by omega) (by omega) hlenp
          (fun m k hm hk1 hk2 => by
            have : m = mid := by omega
            subst this
            exact hpv.2 k (by omega) hk2)
        generalize pdqsortLessFunc less fuel pt.1 (mid + 1) b limit1 true true = dR at *
        have hpvR := hpv.perm_right q1
        obtain ⟨r1, r2⟩ := ih dR a mid limit1 (decide (rightLen ≥ balanceThreshold)) pt.2.2
          (by omega) e2 (by rw [q1.length_eq]; omega)
          ((hLp.of_rangePerm (q1.mono (by omega) le_rfl)).of_le (by omega))
        rw [hout] at r1 r2
        refine ⟨((hp3'.trans e1).trans (q1.mono (by omega) le_rfl)).trans
          (r1.mono le_rfl (by omega)), ?_⟩
        exact (hpvR.perm_left r1).sorted r2
          (q2.congr (fun k hk1 _ => r1.read_outside (Or.inr (by omega))))

theorem read_eq_getElem (l : List α) (i : Nat) (h : i < l.length) : read l i = l[i] := by
  simp [read, List.getD_eq_getElem?_getD, List.getElem?_eq_getElem h]

theorem SortedOn.pairwise {key : α → Nat} {l : List α} (h : SortedOn key 0 l.length l) :
    l.Pairwise (fun u v => key u ≤ key v) := by
  rw [List.pairwise_iff_getElem]
  intro i j hi hj hij
  rw [← read_eq_getElem l i hi, ← read_eq_getElem l j hj]
  exact h.le (Nat.zero_le i) (le_of_lt hij) hj

theorem Slice_spec {less : α → α → Bool} {key : α → Nat} (hless : LessKey less key)
    (x : List α) :
    (Slice x less).Perm x ∧ (Slice x less).Pairwise (fun u v => key u ≤ key v) := by
  obtain ⟨p, s⟩ := pdqsort_spec hless x.length x 0 x.length (bitsLen x.length) true true
    (by omega) (Nat.zero_le _) le_rfl (fun m k hm _ _ => by omega)
  have hl : (Slice x less).length = x.length := p.length_eq
  refine ⟨p.perm, ?_⟩
  apply SortedOn.pairwise
  rw [hl]
  exact s

theorem Slice_eq_insertionSort (less : α → α → Bool) (x : List α) (h : x.length ≤ 12) :
    Slice x less = insertionSortLessFunc less x 0 x.length := by
  unfold Slice
  dsimp only
  cases hx : x.length with
  | zero => rw [pdqsortLessFunc, if_pos (by omega)]
  | succ n => rw [pdqsortLessFunc, if_pos (by omega)]

omit [Inhabited α] in
theorem filter_swap_adjacent (q : α → Bool) (u v : α) (h : ¬(q u = true ∧ q v = true)) :
    ∀ (pre post : List α),
      (pre ++ v :: u :: post).filter q = (pre ++ u :: v :: post).filter q := by
  intro pre post
  simp only [List.filter_append, List.filter_cons]
  by_cases hu : q u = true <;> by_cases hv : q v = true <;> simp_all

theorem swap_adjacent_eq : ∀ (j : Nat) (data : List α), j + 1 < data.length →
    ∃ pre post, data = pre ++ read data j :: read data (j + 1) :: post ∧
      swap data (j + 1) j = pre ++ read data (j + 1) :: read data j :: post := by
  intro j
  induction j with
  | zero =>
    intro data h
    match data, h with
    | u :: v :: post, _ => exact ⟨[], post, by simp [read], by simp [swap, read]⟩
  | succ j ih =>
    intro data h
    match data, h with
    | u :: tl, h =>
      obtain ⟨pre, post, e1, e2⟩ := ih tl (by simpa using h)
      refine ⟨u :: pre, post, ?_, ?_⟩
      · have r1 : read (u :: tl) (j + 1) = read tl j := by simp [read]
        have r2 : read (u :: tl) (j + 1 + 1) = read tl (j + 1) := by simp [read]
        rw [r1, r2, List.cons_append, ← e1]
      · have r1 : read (u :: tl) (j + 1) = read tl j := by simp [read]
        have r2 : read (u :: tl) (j + 1 + 1) = read tl (j + 1) := by simp [read]
        have r3 : swap (u :: tl) (j + 1 + 1) (j + 1) = u :: swap tl (j + 1) j := by
          simp [swap, read]
        rw [r1, r2, r3, e2, List.cons_append]

theorem filter_swap_of_key_ne {key : α → Nat} (p : Nat) (j : Nat) (data : List α)
    (h : j + 1 < data.length) (hne : key (read data (j + 1)) ≠ key (read data j)) :
    (swap data (j + 1) j).filter (fun x => decide (key x = p)) =
      data.filter (fun x => decide (key x = p)) := by
  obtain ⟨pre, post, e1, e2⟩ := swap_adjacent_eq j data h
  rw [e2]
  conv_rhs => rw [e1]
  apply filter_swap_adjacent
  simp only [decide_eq_true_eq]
  omega

theorem insertionInner_stable {less : α → α → Bool} {key : α → Nat} (hless : LessKey less key)
    (p a : Nat) : ∀ (j : Nat) (data : List α), j < data.length →
      (insertionInner less a j data).filter (fun x => decide (key x = p)) =
        data.filter (fun x => decide (key x = p)) := by
  intro j
  induction j with
  | zero => intro data _; rfl
  | succ j ih =>
    intro data h
    rw [insertionInner]
    split
    · rename_i hc
      simp only [Bool.and_eq_true, decide_eq_true_eq, hless _ _] at hc
      rw [ih _ (by rw [length_swap]; omega)]
      exact filter_swap_of_key_ne p j data h (by omega)
    · rfl

theorem insertionInner_length (less : α → α → Bool) (a : Nat) : ∀ (j : Nat) (data : List α),
    (insertionInner less a j data).length = data.length := by
  intro j
  induction j with
  | zero => intro data; rfl
  | succ j ih =>
    intro data
    rw [insertionInner]
    split
    · rw [ih, length_swap]
    · rfl

theorem insertionOuter_stable {less : α → α → Bool} {key : α → Nat} (hless : LessKey less key)
    (p a b : Nat) : ∀ (n i : Nat) (data : List α), b ≤ data.length →
      (insertionOuter less a b n i data).filter (fun x => decide (key x = p)) =
        data.filter (fun x => decide (key x = p)) := by
  intro n
  induction n with
  | zero => intro i data _; rfl
  | succ n ih =>
    intro i data hb
    rw [insertionOuter]
    split
    · rw [ih _ _ (by rw [insertionInner_length]; exact hb)]
      exact insertionInner_stable hless p a i data (by omega)
    · rfl

theorem Slice_stable {less : α → α → Bool} {key : α → Nat} (hless : LessKey less key)
    (x : List α) (h : x.length ≤ 12) (p : Nat) :
    (Slice x less).filter (fun u => decide (key u = p)) =
      x.filter (fun u => decide (key u = p)) := by
  rw [Slice_eq_insertionSort less x h]
  exact insertionOuter_stable hless p 0 x.length _ _ x le_rfl

end GoSort

/-! ## Branch priority order (`sortBranchesByPriority`) -/

theorem pairwise_key_split {α : Type} (key : α → Nat) (t : Nat) :
    ∀ l : List α, l.Pairwise (fun u v => key u ≤ key v) →
      l = l.filter (fun u => decide (key u ≤ t)) ++ l.filter (fun u => decide (t < key u)) := by
  intro l
  induction l with
  | nil => intro _; rfl
  | cons x xs ih =>
    intro h
    rw [List.pairwise_cons] at h
    have e := ih h.2
    by_cases hx : key x ≤ t
    · have h1 : decide (key x ≤ t) = true := by simpa using hx
      have h2 : decide (t < key x) = false := by simp; omega
      simp only [List.filter_cons, h1, h2, if_true, Bool.false_eq_true, if_false,
        List.cons_append]
      rw [← e]
    · have h1 : decide (key x ≤ t) = false := by simpa using hx
      have h2 : decide (t < key x) = true := by simp; omega
      have hall : xs.filter (fun u => decide (key u ≤ t)) = [] := by
        rw [List.filter_eq_nil_iff]
        intro u hu
        have := h.1 u hu
        simp only [decide_eq_true_eq]
        omega
      have hall2 : xs.filter (fun u => decide (t < key u)) = xs := by
        rw [List.filter_eq_self]
        intro u hu
        have := h.1 u hu
        simp only [decide_eq_true_eq]
        omega
      simp only [List.filter_cons, h1, h2, if_true, Bool.false_eq_true, if_false, hall, hall2,
        List.nil_append]

theorem getBranchPriority_lessKey (currentBranch : String) :
    GoSort.LessKey
      (fun bi bj => decide (getBranchPriority bi currentBranch < getBranchPriority bj currentBranch))
      (fun b => getBranchPriority b currentBranch) := by
  intro x y
  simp

theorem getBranchPriority_cases (b c : String) :
    (b = "main" ∧ getBranchPriority b c = 1) ∨
      (b ≠ "main" ∧ b = c ∧ getBranchPriority b c = 2) ∨
      (b ≠ "main" ∧ b ≠ c ∧ getBranchPriority b c = 3) := by
  unfold getBranchPriority PriorityMain PriorityCurrent PriorityOther
  by_cases h1 : b = "main"
  · left; exact ⟨h1, by rw [if_pos h1]⟩
  · by_cases h2 : b = c
    · right; left; exact ⟨h1, h2, by rw [if_neg h1, if_pos h2]⟩
    · right; right; exact ⟨h1, h2, by rw [if_neg h1, if_neg h2]⟩

theorem sortBranchesByPriority_spec (currentBranch : String) (branches : List String) :
    (sortBranchesByPriority currentBranch branches).Perm branches ∧
      (sortBranchesByPriority currentBranch branches).Pairwise
        (fun u v => getBranchPriority u currentBranch ≤ getBranchPriority v currentBranch) :=
  GoSort.Slice_spec (getBranchPriority_lessKey currentBranch) branches

theorem sortBranchesByPriority_blocks (currentBranch : String) (branches : List String) :
    ∃ others,
      sortBranchesByPriority currentBranch branches =
        List.replicate (branches.count "main") "main" ++
          (List.replicate (if currentBranch = "main" then 0 else branches.count currentBranch)
            currentBranch ++ others) ∧
      "main" ∉ others ∧ currentBranch ∉ others := by
  obtain ⟨hp, hs⟩ := sortBranchesByPriority_spec currentBranch branches
  generalize sortBranchesByPriority currentBranch branches = out at hp hs
  have e1 := pairwise_key_split (fun b => getBranchPriority b currentBranch) 1 out hs
  have hs2 : (out.filter (fun u => decide (1 < getBranchPriority u currentBranch))).Pairwise
      (fun u v => getBranchPriority u currentBranch ≤ getBranchPriority v currentBranch) :=
    hs.sublist (List.filter_sublist _)
  have e2 := pairwise_key_split (fun b => getBranchPriority b currentBranch) 2 _ hs2
  simp only [List.filter_filter] at e2
  have f1 : out.filter (fun u => decide (getBranchPriority u currentBranch ≤ 1)) =
      List.replicate (branches.count "main") "main" := by
    rw [← hp.count_eq, ← List.filter_eq]
    apply List.filter_congr
    intro x _
    rcases getBranchPriority_cases x currentBranch with ⟨a1, a2⟩ | ⟨a1, _, a2⟩ | ⟨a1, _, a2⟩ <;>
      (simp only [a2]; simp [a1])
  have f2 : out.filter (fun u => decide (getBranchPriority u currentBranch ≤ 2) &&
        decide (1 < getBranchPriority u currentBranch)) =
      List.replicate (if currentBranch = "main" then 0 else branches.count currentBranch)
        currentBranch := by
    by_cases hc : currentBranch = "main"
    · rw [if_pos hc, List.replicate_zero, List.filter_eq_nil_iff]
      intro x _
      rcases getBranchPriority_cases x currentBranch with ⟨a1, a2⟩ | ⟨a1, a3, a2⟩ | ⟨a1, _, a2⟩
      · simp [a2]
      · exact absurd (a3.trans hc) a1
      · simp [a2]
    · rw [if_neg hc, ← hp.count_eq, ← List.filter_eq]
      apply List.filter_congr
      intro x _
      rcases getBranchPriority_cases x currentBranch with ⟨a1, a2⟩ | ⟨a1, a3, a2⟩ | ⟨a1, a3, a2⟩
      · have : x ≠ currentBranch := fun h => hc (h.symm.trans a1)
        simp only [a2]; simp [this]
      · simp only [a2]; simp [a3]
      · simp only [a2]; simp [a3]
  refine ⟨out.filter (fun u => decide (2 < getBranchPriority u currentBranch) &&
    decide (1 < getBranchPriority u currentBranch)), ?_, ?_, ?_⟩
  · rw [← f1, ← f2, ← e2]
    exact e1
  · intro h
    rw [List.mem_filter] at h
    rcases getBranchPriority_cases "main" currentBranch with ⟨a1, a2⟩ | ⟨a1, _, a2⟩ | ⟨a1, _, a2⟩
    · simp [a2] at h
    · exact a1 rfl
    · exact a1 rfl
  · intro h
    rw [List.mem_filter] at h
    rcases getBranchPriority_cases currentBranch currentBranch with
      ⟨a1, a2⟩ | ⟨a1, _, a2⟩ | ⟨a1, a3, a2⟩
    · simp [a2] at h
    · simp [a2] at h
    · exact a3 rfl

/-- Claim C1: `sortBranchesByPriority` rearranges its input so that every
`"main"` comes first, the current branch (when it is not `"main"`) directly
after, and all other branches after both. -/
theorem sortBranchesByPriority_priority_order (currentBranch : String) (branches : List String) :
    (sortBranchesByPriority currentBranch branches).Perm branches ∧
    (∃ others,
      sortBranchesByPriority currentBranch branches =
        List.replicate (branches.count "main") "main" ++
          (List.replicate (if currentBranch = "main" then 0 else branches.count currentBranch)
            currentBranch ++ others) ∧
      "main" ∉ others ∧ currentBranch ∉ others) ∧
    ("main" ∈ branches → (sortBranchesByPriority currentBranch branches).head? = some "main") ∧
    (currentBranch ≠ "main" → currentBranch ∈ branches →
      (sortBranchesByPriority currentBranch branches)[branches.count "main"]? =
        some currentBranch) := by
  obtain ⟨others, e, h1, h2⟩ := sortBranchesByPriority_blocks currentBranch branches
  refine ⟨(sortBranchesByPriority_spec currentBranch branches).1, ⟨others, e, h1, h2⟩, ?_, ?_⟩
  · intro hm
    rw [e]
    have : 0 < branches.count "main" := List.count_pos_iff.2 hm
    obtain ⟨n, hn⟩ : ∃ n, branches.count "main" = n + 1 := ⟨branches.count "main" - 1, by omega⟩
    rw [hn, List.replicate_succ]
    rfl
  · intro hc hm
    rw [e, if_neg hc]
    have : 0 < branches.count currentBranch := List.count_pos_iff.2 hm
    obtain ⟨n, hn⟩ : ∃ n, branches.count currentBranch = n + 1 :=
      ⟨branches.count currentBranch - 1, by omega⟩
    rw [hn, List.replicate_succ]
    rw [List.getElem?_append_right (by simp)]
    simp

/-- Claim C2, as amended: on a list of at most 12 branches `sortBranchesByPriority`
is stable, that is, for every priority tier `p` the branches of that tier appear
in the output in the same order as in the input. -/
theorem sortBranchesByPriority_stable_of_length_le (currentBranch : String)
    (branches : List String) (h : branches.length ≤ 12) (p : BranchPriority) :
    (sortBranchesByPriority currentBranch branches).filter
        (fun b => decide (getBranchPriority b currentBranch = p)) =
      branches.filter (fun b => decide (getBranchPriority b currentBranch = p)) :=
  GoSort.Slice_stable (getBranchPriority_lessKey currentBranch) branches h p

/-- Witness for claim C2: the four branches of `TestSortBranchesByPriority`. -/
theorem sortBranchesByPriority_stable_of_length_le_witness :
    ["feat/other", "main", "feat/another", "feat/test"].length ≤ 12 ∧
      (sortBranchesByPriority "feat/test" ["feat/other", "main", "feat/another", "feat/test"]).filter
          (fun b => decide (getBranchPriority b "feat/test" = PriorityOther)) =
        ["feat/other", "main", "feat/another", "feat/test"].filter
          (fun b => decide (getBranchPriority b "feat/test" = PriorityOther)) :=
  ⟨by decide,
    sortBranchesByPriority_stable_of_length_le "feat/test"
      ["feat/other", "main", "feat/another", "feat/test"] (by decide) PriorityOther⟩

set_option maxRecDepth 100000 in
/-- Counterexample to claim C2: with thirteen branches, twelve of the lowest tier
followed by `"main"`, the sort leaves insertion sort for `pdqsort_func`:
`choosePivot_func` picks index 6, `partition_func` swaps `"o7"` to the front and
exchanges `"o2"` with `"main"`, and the lowest tier is no longer in its input
order. -/
theorem sortBranchesByPriority_unstable_counterexample :
    sortBranchesByPriority "cur"
        ["o1", "o2", "o3", "o4", "o5", "o6", "o7", "o8", "o9", "o10", "o11", "o12", "main"] =
      ["main", "o7", "o3", "o4", "o5", "o6", "o1", "o8", "o9", "o10", "o11", "o12", "o2"] ∧
    (sortBranchesByPriority "cur"
        ["o1", "o2", "o3", "o4", "o5", "o6", "o7", "o8", "o9", "o10", "o11", "o12", "main"]).filter
        (fun b => decide (getBranchPriority b "cur" = PriorityOther)) ≠
      ["o1", "o2", "o3", "o4", "o5", "o6", "o7", "o8", "o9", "o10", "o11", "o12", "main"].filter
        (fun b => decide (getBranchPriority b "cur" = PriorityOther)) := by
  decide

/-! ## Multi-branch aggregation (`LoadChallenges`) -/

theorem foldl_flatMap_eq {α β σ : Type} (f : α → List β) (g : σ → β → σ) :
    ∀ (l : List α) (s : σ),
      (l.flatMap f).foldl g s = l.foldl (fun s x => (f x).foldl g s) s := by
  intro l
  induction l with
  | nil => intro s; rfl
  | cons x xs ih =>
    intro s
    rw [List.flatMap_cons, List.foldl_append, ih]
    rfl

theorem foldl_invariant {σ β : Type} (I : σ → Prop) (f : σ → β → σ) :
    ∀ (l : List β), (∀ s x, x ∈ l → I s → I (f s x)) → ∀ s, I s → I (l.foldl f s) := by
  intro l
  induction l with
  | nil => intro _ s hs; exact hs
  | cons x xs ih =>
    intro h s hs
    exact ih (fun s y hy => h s y (List.mem_cons_of_mem _ hy)) _
      (h s x (List.mem_cons_self _ _) hs)

theorem foldl_processBranch_eq (git : Git) (genres branches : List String) (st : LoadState) :
    branches.foldl (processBranch git genres) st =
      (candidates git genres branches).foldl (processCandidate git) st := by
  unfold candidates
  rw [foldl_flatMap_eq]
  congr 1
  funext s branch
  unfold processBranch
  rw [foldl_flatMap_eq]
  congr 1
  funext s genre
  unfold processGenre
  cases git.listChallengeFilesInBranch branch genre with
  | none => rfl
  | some files =>
    simp only [List.foldl_map]
    rfl

theorem mem_candidates (git : Git) (genres branches : List String) (c : String × String) :
    c ∈ candidates git genres branches ↔ c.1 ∈ branches ∧ BranchLists git genres c.1 c.2 := by
  unfold candidates BranchLists
  simp only [List.mem_flatMap]
  constructor
  · rintro ⟨b, hb, g, hg, hc⟩
    cases hl : git.listChallengeFilesInBranch b g with
    | none => rw [hl] at hc; simp at hc
    | some files =>
      rw [hl] at hc
      simp only [List.mem_map] at hc
      obtain ⟨f, hf, rfl⟩ := hc
      exact ⟨hb, g, hg, files, hl, hf⟩
  · rintro ⟨hb, g, hg, files, hl, hf⟩
    refine ⟨c.1, hb, g, hg, ?_⟩
    rw [hl]
    simp only [List.mem_map]
    exact ⟨c.2, hf, rfl⟩

theorem candidates_append (git : Git) (genres l₁ l₂ : List String) :
    candidates git genres (l₁ ++ l₂) = candidates git genres l₁ ++ candidates git genres l₂ := by
  unfold candidates
  rw [List.flatMap_append]

theorem loadResult_some (git : Git) (b f : String) (r : ChallengeResult)
    (h : loadResult git b f = some r) : r.FilePath = f ∧ r.BranchName = b := by
  unfold loadResult at h
  split at h
  · simp at h
  · split at h
    · simp at h
    · simp only [Option.some.injEq] at h
      subst h
      exact ⟨rfl, rfl⟩

theorem processCandidate_eq (git : Git) (st : LoadState) (c : String × String) :
    processCandidate git st c =
      if c.2 ∈ st.1 then st
      else (c.2 :: st.1,
        match loadResult git c.1 c.2 with
        | none => st.2
        | some r => st.2 ++ [r]) := by
  unfold processCandidate processFile loadResult
  split
  · rfl
  · cases h1 : git.getFileContentFromBranch c.1 c.2 with
    | none => simp only [h1]
    | some content =>
      cases h2 : git.yamlUnmarshal content with
      | none => simp only [h1, h2]
      | some ch => simp only [h1, h2]

/-- A visit leaves the results alone or appends the loaded result of a path that
was not yet processed. -/
theorem processCandidate_cases (git : Git) (st : LoadState) (c : String × String) :
    (c.2 ∈ (processCandidate git st c).1) ∧ (∀ p ∈ st.1, p ∈ (processCandidate git st c).1) ∧
    (∀ p ∈ (processCandidate git st c).1, p ∈ st.1 ∨ p = c.2) ∧
    ((processCandidate git st c).2 = st.2 ∧ (c.2 ∈ st.1 ∨ loadResult git c.1 c.2 = none) ∨
      ∃ r, c.2 ∉ st.1 ∧ loadResult git c.1 c.2 = some r ∧ r.FilePath = c.2 ∧
        r.BranchName = c.1 ∧ (processCandidate git st c).2 = st.2 ++ [r]) := by
  rw [processCandidate_eq]
  by_cases h : c.2 ∈ st.1
  · rw [if_pos h]
    exact ⟨h, fun p hp => hp, fun p hp => Or.inl hp, Or.inl ⟨rfl, Or.inl h⟩⟩
  · rw [if_neg h]
    refine ⟨List.mem_cons_self _ _, fun p hp => List.mem_cons_of_mem _ hp, fun p hp => ?_, ?_⟩
    · rcases List.mem_cons.1 hp with e | e
      · exact Or.inr e
      · exact Or.inl e
    · cases hl : loadResult git c.1 c.2 with
      | none => exact Or.inl ⟨rfl, Or.inr rfl⟩
      | some r =>
        obtain ⟨e1, e2⟩ := loadResult_some git c.1 c.2 r hl
        exact Or.inr ⟨r, h, rfl, e1, e2, rfl⟩

/-- Every result's path is processed and no two results share a path. -/
theorem processCandidate_nodup (git : Git) (st : LoadState) (c : String × String)
    (h : (∀ r ∈ st.2, r.FilePath ∈ st.1) ∧ (st.2.map ChallengeResult.FilePath).Nodup) :
    (∀ r ∈ (processCandidate git st c).2, r.FilePath ∈ (processCandidate git st c).1) ∧
      ((processCandidate git st c).2.map ChallengeResult.FilePath).Nodup := by
  obtain ⟨h1, h2, h3, h4⟩ := processCandidate_cases git st c
  rcases h4 with ⟨e, _⟩ | ⟨r, hn, hl, e1, e2, e⟩
  · rw [e]
    exact ⟨fun r hr => h2 _ (h.1 r hr), h.2⟩
  · rw [e]
    refine ⟨fun r' hr' => ?_, ?_⟩
    · rcases List.mem_append.1 hr' with hr' | hr'
      · exact h2 _ (h.1 r' hr')
      · rw [List.mem_singleton.1 hr', e1]; exact h1
    · rw [List.map_append, List.nodup_append]
      refine ⟨h.2, by simp, ?_⟩
      intro p hp hp'
      simp only [List.map_cons, List.map_nil, List.mem_singleton] at hp'
      obtain ⟨r', hr', rfl⟩ := List.mem_map.1 hp
      exact hn (by rw [← e1, ← hp']; exact h.1 r' hr')

theorem LoadChallenges_eq (git : Git) (currentBranch : String) (genres branches : List String)
    (hb : git.listLocalBranches = some branches) :
    LoadChallenges git currentBranch genres =
      some ((candidates git genres (sortBranchesByPriority currentBranch branches)).foldl
        (processCandidate git) ([], [])).2 := by
  unfold LoadChallenges
  rw [hb]
  simp only [foldl_processBranch_eq]

theorem foldl_processCandidate_nodup (git : Git) (cs : List (String × String)) :
    (((cs.foldl (processCandidate git) ([], [])).2).map ChallengeResult.FilePath).Nodup :=
  (foldl_invariant
    (fun st : LoadState => (∀ r ∈ st.2, r.FilePath ∈ st.1) ∧
      (st.2.map ChallengeResult.FilePath).Nodup)
    (processCandidate git) cs (fun s x _ hs => processCandidate_nodup git s x hs) ([], [])
    ⟨fun r hr => by simp at hr, by simp⟩).2

/-- Claim C3: the sequence returned by `LoadChallenges` contains no two results
with the same `FilePath`, whatever the branches, the genres and the external
listing, retrieval and parsing do. -/
theorem LoadChallenges_filePath_nodup (git : Git) (currentBranch : String)
    (genres : List String) (results : List ChallengeResult)
    (h : LoadChallenges git currentBranch genres = some results) :
    (results.map ChallengeResult.FilePath).Nodup := by
  cases hb : git.listLocalBranches with
  | none => simp [LoadChallenges, hb] at h
  | some branches =>
    rw [LoadChallenges_eq git currentBranch genres branches hb] at h
    simp only [Option.some.injEq] at h
    rw [← h]
    exact foldl_processCandidate_nodup git _

theorem foldl_processCandidate_processed (git : Git) :
    ∀ (cs : List (String × String)) (st : LoadState),
      (∀ c ∈ cs, c.2 ∈ (cs.foldl (processCandidate git) st).1) ∧
        (∀ p ∈ st.1, p ∈ (cs.foldl (processCandidate git) st).1) := by
  intro cs
  induction cs with
  | nil => intro st; exact ⟨fun c hc => by simp at hc, fun p hp => hp⟩
  | cons c cs ih =>
    intro st
    obtain ⟨h1, h2, _, _⟩ := processCandidate_cases git st c
    obtain ⟨i1, i2⟩ := ih (processCandidate git st c)
    rw [List.foldl_cons]
    refine ⟨fun c' hc' => ?_, fun p hp => i2 p (h2 p hp)⟩
    rcases List.mem_cons.1 hc' with e | e
    · rw [e]; exact i2 _ h1
    · exact i1 c' e

/-- Walking the candidates in priority order keeps, for every result, a branch
whose priority is at most that of every candidate with the same path. -/
theorem foldl_processCandidate_priority (git : Git) (currentBranch : String) :
    ∀ (rest pre : List (String × String)) (st : LoadState),
      (∀ c ∈ pre, c.2 ∈ st.1) →
      (∀ r ∈ st.2, (r.BranchName, r.FilePath) ∈ pre ∧ ∀ c ∈ pre, c.2 = r.FilePath →
        getBranchPriority r.BranchName currentBranch ≤ getBranchPriority c.1 currentBranch) →
      (pre ++ rest).Pairwise (fun x y =>
        getBranchPriority x.1 currentBranch ≤ getBranchPriority y.1 currentBranch) →
      ∀ r ∈ (rest.foldl (processCandidate git) st).2,
        (r.BranchName, r.FilePath) ∈ pre ++ rest ∧ ∀ c ∈ pre ++ rest, c.2 = r.FilePath →
          getBranchPriority r.BranchName currentBranch ≤ getBranchPriority c.1 currentBranch := by
  intro rest
  induction rest with
  | nil =>
    intro pre st _ h2 _ r hr
    simpa using h2 r hr
  | cons c rest ih =>
    intro pre st h1 h2 hp r hr
    rw [List.foldl_cons] at hr
    have hp' : (pre ++ [c] ++ rest).Pairwise (fun x y =>
        getBranchPriority x.1 currentBranch ≤ getBranchPriority y.1 currentBranch) := by
      simpa using hp
    have hpre : ∀ x ∈ pre, getBranchPriority x.1 currentBranch ≤
        getBranchPriority c.1 currentBranch := by
      intro x hx
      rw [List.pairwise_append] at hp
      exact hp.2.2 x hx c (List.mem_cons_self _ _)
    obtain ⟨k1, k2, k3, k4⟩ := processCandidate_cases git st c
    have := ih (pre ++ [c]) (processCandidate git st c)
      (by
        intro c' hc'
        rcases List.mem_append.1 hc' with e | e
        · exact k2 _ (h1 c' e)
        · rw [List.mem_singleton.1 e]; exact k1)
      (by
        intro r' hr'
        have old : ∀ r'' ∈ st.2, (r''.BranchName, r''.FilePath) ∈ pre ++ [c] ∧
            ∀ c' ∈ pre ++ [c], c'.2 = r''.FilePath →
              getBranchPriority r''.BranchName currentBranch ≤
                getBranchPriority c'.1 currentBranch := by
          intro r'' hr''
          obtain ⟨o1, o2⟩ := h2 r'' hr''
          refine ⟨List.mem_append_left _ o1, fun c' hc' e => ?_⟩
          rcases List.mem_append.1 hc' with m | m
          · exact o2 c' m e
          · rw [List.mem_singleton.1 m]
            exact hpre _ o1
        rcases k4 with ⟨e, _⟩ | ⟨rn, hn, hl, e1, e2, e⟩
        · rw [e] at hr'
          exact old r' hr'
        · rw [e] at hr'
          rcases List.mem_append.1 hr' with m | m
          · exact old r' m
          · rw [List.mem_singleton.1 m]
            refine ⟨List.mem_append_right _ (by rw [e1, e2]; simp), fun c' hc' e' => ?_⟩
            rcases List.mem_append.1 hc' with m' | m'
            · exact absurd (by rw [← e1, ← e']; exact h1 c' m') hn
            · rw [List.mem_singleton.1 m', e2])
      hp' r hr
    simpa using this

theorem candidates_pairwise (git : Git) (currentBranch : String) (genres branches : List String)
    (h : branches.Pairwise (fun u v =>
      getBranchPriority u currentBranch ≤ getBranchPriority v currentBranch)) :
    (candidates git genres branches).Pairwise (fun x y =>
      getBranchPriority x.1 currentBranch ≤ getBranchPriority y.1 currentBranch) := by
  have hfst : ∀ b x, x ∈ candidates git genres [b] → x.1 = b := by
    intro b x hx
    have := (mem_candidates git genres [b] x).1 hx
    simpa using this.1
  induction branches with
  | nil => simp [candidates]
  | cons b bs ih =>
    rw [List.pairwise_cons] at h
    have e : candidates git genres (b :: bs) =
        candidates git genres [b] ++ candidates git genres bs :=
      candidates_append git genres [b] bs
    rw [e, List.pairwise_append]
    refine ⟨?_, ih h.2, ?_⟩
    · rw [List.pairwise_iff_forall_sublist]
      intro x y hxy
      have hx := hfst b x (hxy.subset (List.mem_cons_self _ _))
      have hy := hfst b y (hxy.subset (List.mem_cons_of_mem _ (List.mem_cons_self _ _)))
      rw [hx, hy]
    · intro x hx y hy
      rw [hfst b x hx]
      exact h.1 _ ((mem_candidates git genres bs y).1 hy).1

theorem foldl_processCandidate_exists (git : Git) (P : String) (cs : List (String × String))
    (hload : ∀ c ∈ cs, c.2 = P → (loadResult git c.1 c.2).isSome) (hP : ∃ c ∈ cs, c.2 = P) :
    P ∈ ((cs.foldl (processCandidate git) ([], [])).2).map ChallengeResult.FilePath := by
  have inv := foldl_invariant
    (fun st : LoadState => P ∈ st.1 → ∃ r ∈ st.2, r.FilePath = P)
    (processCandidate git) cs
    (by
      intro s c hc hs hP'
      obtain ⟨k1, k2, k3, k4⟩ := processCandidate_cases git s c
      rcases k4 with ⟨e, hor⟩ | ⟨r, hn, hl, e1, e2, e⟩
      · rw [e]
        rcases k3 P hP' with m | m
        · exact hs m
        · rcases hor with o | o
          · exact hs (by rw [m]; exact o)
          · have := hload c hc m.symm
            rw [o] at this
            simp at this
      · rw [e]
        rcases k3 P hP' with m | m
        · obtain ⟨r', hr', e'⟩ := hs m
          exact ⟨r', List.mem_append_left _ hr', e'⟩
        · exact ⟨r, List.mem_append_right _ (List.mem_singleton_self _), by rw [e1, m]⟩)
    ([], []) (fun h => by simp at h)
  obtain ⟨c, hc, e⟩ := hP
  have hproc := (foldl_processCandidate_processed git cs ([], [])).1 c hc
  rw [e] at hproc
  obtain ⟨r, hr, e'⟩ := inv hproc
  exact List.mem_map.2 ⟨r, hr, e'⟩

/-- Claim C4: every result of `LoadChallenges` carries a branch of highest
priority among the branches that list its path, and a path listed by some
branches whose copies all load appears in exactly one result. -/
theorem LoadChallenges_highest_priority (git : Git) (currentBranch : String)
    (genres branches : List String) (hb : git.listLocalBranches = some branches) :
    ∃ results, LoadChallenges git currentBranch genres = some results ∧
      (∀ r ∈ results, r.BranchName ∈ branches ∧
        BranchLists git genres r.BranchName r.FilePath ∧
        ∀ b ∈ branches, BranchLists git genres b r.FilePath →
          getBranchPriority r.BranchName currentBranch ≤ getBranchPriority b currentBranch) ∧
      (∀ P, (∃ b ∈ branches, BranchLists git genres b P) →
        (∀ b ∈ branches, BranchLists git genres b P → (loadResult git b P).isSome) →
        (results.map ChallengeResult.FilePath).count P = 1) := by
  refine ⟨_, LoadChallenges_eq git currentBranch genres branches hb, ?_, ?_⟩
  · obtain ⟨hperm, hsorted⟩ := sortBranchesByPriority_spec currentBranch branches
    intro r hr
    have key := foldl_processCandidate_priority git currentBranch
      (candidates git genres (sortBranchesByPriority currentBranch branches)) [] ([], [])
      (fun c hc => by simp at hc) (fun r hr => by simp at hr)
      (by simpa using candidates_pairwise git currentBranch genres _ hsorted) r hr
    simp only [List.nil_append] at key
    obtain ⟨m1, m2⟩ := (mem_candidates git genres _ _).1 key.1
    refine ⟨hperm.mem_iff.1 m1, m2, fun b hb' hl => ?_⟩
    exact key.2 (b, r.FilePath)
      ((mem_candidates git genres _ _).2 ⟨hperm.mem_iff.2 hb', hl⟩) rfl
  · obtain ⟨hperm, _⟩ := sortBranchesByPriority_spec currentBranch branches
    intro P hex hload
    apply List.count_eq_one_of_mem (foldl_processCandidate_nodup git _)
    apply foldl_processCandidate_exists
    · intro c hc e
      obtain ⟨m1, m2⟩ := (mem_candidates git genres _ _).1 hc
      rw [e] at m2 ⊢
      exact hload c.1 (hperm.mem_iff.1 m1) m2
    · obtain ⟨b, hb', hl⟩ := hex
      exact ⟨(b, P), (mem_candidates git genres _ _).2 ⟨hperm.mem_iff.2 hb', hl⟩, rfl⟩

/-- Claim C5 (claim before attempt): when the first branch in priority order
that lists a path fails to retrieve or parse its copy, `LoadChallenges` returns
no result for that path, whatever the later branches hold. -/
theorem LoadChallenges_claim_before_attempt (git : Git) (currentBranch : String)
    (genres branches : List String) (hb : git.listLocalBranches = some branches)
    (P b : String) (s₁ s₂ : List String)
    (hs : sortBranchesByPriority currentBranch branches = s₁ ++ b :: s₂)
    (h₁ : ∀ b' ∈ s₁, ¬BranchLists git genres b' P) (h₂ : BranchLists git genres b P)
    (hfail : loadResult git b P = none) :
    ∃ results, LoadChallenges git currentBranch genres = some results ∧
      ∀ r ∈ results, r.FilePath ≠ P := by
  refine ⟨_, LoadChallenges_eq git currentBranch genres branches hb, ?_⟩
  have e : candidates git genres (s₁ ++ b :: s₂) =
      candidates git genres s₁ ++ (candidates git genres [b] ++ candidates git genres s₂) := by
    rw [candidates_append, ← candidates_append git genres [b] s₂]
    rfl
  rw [hs, e, List.foldl_append, List.foldl_append]
  -- first phase: the branches before `b` never visit `P`
  have ph1 := foldl_invariant (fun st : LoadState => ∀ r ∈ st.2, r.FilePath ≠ P)
    (processCandidate git) (candidates git genres s₁)
    (by
      intro s c hc hs' r hr
      have hne : c.2 ≠ P := by
        intro e'
        obtain ⟨m1, m2⟩ := (mem_candidates git genres _ _).1 hc
        rw [e'] at m2
        exact h₁ _ m1 m2
      obtain ⟨_, _, _, k4⟩ := processCandidate_cases git s c
      rcases k4 with ⟨e', _⟩ | ⟨rn, _, _, e1, _, e'⟩
      · rw [e'] at hr; exact hs' r hr
      · rw [e'] at hr
        rcases List.mem_append.1 hr with m | m
        · exact hs' r m
        · rw [List.mem_singleton.1 m, e1]; exact hne)
    ([], []) (fun r hr => by simp at hr)
  generalize (candidates git genres s₁).foldl (processCandidate git) ([], []) = st₁ at ph1
  -- second phase: the visit of `P` in `b` fails
  have ph2 := foldl_invariant (fun st : LoadState => ∀ r ∈ st.2, r.FilePath ≠ P)
    (processCandidate git) (candidates git genres [b])
    (by
      intro s c hc hs' r hr
      have hcb : c.1 = b := by
        have := ((mem_candidates git genres [b] c).1 hc).1
        simpa using this
      obtain ⟨_, _, _, k4⟩ := processCandidate_cases git s c
      rcases k4 with ⟨e', _⟩ | ⟨rn, _, hl, e1, _, e'⟩
      · rw [e'] at hr; exact hs' r hr
      · rw [e'] at hr
        rcases List.mem_append.1 hr with m | m
        · exact hs' r m
        · rw [List.mem_singleton.1 m, e1]
          intro e''
          rw [hcb, e'', hfail] at hl
          simp at hl)
    st₁ ph1
  have hin : P ∈ ((candidates git genres [b]).foldl (processCandidate git) st₁).1 :=
    (foldl_processCandidate_processed git (candidates git genres [b]) st₁).1 (b, P)
      ((mem_candidates git genres [b] (b, P)).2 ⟨by simp, h₂⟩)
  generalize (candidates git genres [b]).foldl (processCandidate git) st₁ = st₂ at ph2 hin
  -- third phase: `P` is already claimed
  exact (foldl_invariant
    (fun st : LoadState => P ∈ st.1 ∧ ∀ r ∈ st.2, r.FilePath ≠ P)
    (processCandidate git) (candidates git genres s₂)
    (by
      intro s c _ hs' 
      obtain ⟨_, k2, _, k4⟩ := processCandidate_cases git s c
      refine ⟨k2 P hs'.1, fun r hr => ?_⟩
      rcases k4 with ⟨e', _⟩ | ⟨rn, hn, _, e1, _, e'⟩
      · rw [e'] at hr; exact hs'.2 r hr
      · rw [e'] at hr
        rcases List.mem_append.1 hr with m | m
        · exact hs'.2 r m
        · rw [List.mem_singleton.1 m, e1]
          intro e''
          exact hn (by rw [e'']; exact hs'.1))
    st₂ ⟨hin, ph2⟩).2

/-- Witness for claim C3: the example repository, scanned with the genre `web`
given twice. -/
theorem LoadChallenges_filePath_nodup_witness :
    LoadChallenges exampleGit "feat/test" ["web", "web"] =
        some [⟨"A on main", ["web"], "web/a/challenge.yml", "main"⟩,
          ⟨"B", ["web", "xss"], "web/b/challenge.yml", "feat/test"⟩] ∧
      ([(⟨"A on main", ["web"], "web/a/challenge.yml", "main"⟩ : ChallengeResult),
          ⟨"B", ["web", "xss"], "web/b/challenge.yml", "feat/test"⟩].map
        ChallengeResult.FilePath).Nodup :=
  ⟨by decide,
    LoadChallenges_filePath_nodup exampleGit "feat/test" ["web", "web"] _ (by decide)⟩

/-- Witness for claim C4: the example repository, where `main` and `feat/test`
both list `web/a/challenge.yml`. -/
theorem LoadChallenges_highest_priority_witness :
    exampleGit.listLocalBranches = some ["feat/other", "main", "feat/test"] ∧
    ∃ results, LoadChallenges exampleGit "feat/test" ["web"] = some results ∧
      (∀ r ∈ results, r.BranchName ∈ ["feat/other", "main", "feat/test"] ∧
        BranchLists exampleGit ["web"] r.BranchName r.FilePath ∧
        ∀ b ∈ ["feat/other", "main", "feat/test"], BranchLists exampleGit ["web"] b r.FilePath →
          getBranchPriority r.BranchName "feat/test" ≤ getBranchPriority b "feat/test") ∧
      (∀ P, (∃ b ∈ ["feat/other", "main", "feat/test"], BranchLists exampleGit ["web"] b P) →
        (∀ b ∈ ["feat/other", "main", "feat/test"], BranchLists exampleGit ["web"] b P →
          (loadResult exampleGit b P).isSome) →
        (results.map ChallengeResult.FilePath).count P = 1) :=
  ⟨rfl, LoadChallenges_highest_priority exampleGit "feat/test" ["web"]
    ["feat/other", "main", "feat/test"] rfl⟩

/-- Witness for claim C5: the scenario of the spec, with current branch
`feature/x`; the malformed copy on `main` claims the path and the result is
empty. -/
theorem LoadChallenges_claim_before_attempt_witness :
    sortBranchesByPriority "feature/x" ["feature/x", "main"] = [] ++ "main" :: ["feature/x"] ∧
    loadResult scenarioGit "main" "web/a/challenge.yml" = none ∧
    (loadResult scenarioGit "feature/x" "web/a/challenge.yml").isSome = true ∧
    LoadChallenges scenarioGit "feature/x" ["web"] = some [] ∧
    ∃ results, LoadChallenges scenarioGit "feature/x" ["web"] = some results ∧
      ∀ r ∈ results, r.FilePath ≠ "web/a/challenge.yml" :=
  ⟨by decide, by decide, by decide, by decide,
    LoadChallenges_claim_before_attempt scenarioGit "feature/x" ["web"] ["feature/x", "main"] rfl
      "web/a/challenge.yml" "main" [] ["feature/x"] (by decide) (fun b' hb' => by simp at hb')
      ⟨"web", by simp, ["web/a/challenge.yml"], rfl, by simp⟩ (by decide)⟩

/-! ## Tag filters (`filterChallengesByTags`, `filterChallengesByInput`) -/

theorem containsRunes_iff (s substr : List Char) :
    containsRunes s substr = true ↔ substr <:+: s := by
  induction s with
  | nil =>
    rw [containsRunes, List.infix_nil, List.isEmpty_iff]
  | cons c s ih =>
    rw [containsRunes, Bool.or_eq_true, ih, List.infix_cons_iff, List.isPrefixOf_iff_prefix]

theorem Contains_iff (s substr : String) : Contains s substr = true ↔ substr.data <:+: s.data :=
  containsRunes_iff s.data substr.data

theorem hasMatchingTagInner_iff (caseTable : Char → Char) (searchTag : String)
    (challengeTags : List String) :
    hasMatchingTagInner caseTable searchTag challengeTags = true ↔
      ∃ tag ∈ challengeTags,
        (ToLower caseTable searchTag).data <:+: (ToLower caseTable tag).data := by
  induction challengeTags with
  | nil => simp [hasMatchingTagInner]
  | cons t ts ih =>
    rw [hasMatchingTagInner]
    by_cases h : Contains (ToLower caseTable t) (ToLower caseTable searchTag) = true
    · rw [if_pos h]
      simp only [List.mem_cons, exists_eq_or_imp, true_iff]
      exact Or.inl ((Contains_iff _ _).1 h)
    · rw [if_neg h, ih]
      simp only [List.mem_cons, exists_eq_or_imp]
      rw [Contains_iff] at h
      exact ⟨fun h' => Or.inr h', fun h' => h'.resolve_left h⟩

theorem hasMatchingTag_iff (caseTable : Char → Char) (challengeTags searchTags : List String) :
    hasMatchingTag caseTable challengeTags searchTags = true ↔
      ∃ tag ∈ challengeTags, ∃ q ∈ searchTags,
        (ToLower caseTable q).data <:+: (ToLower caseTable tag).data := by
  induction searchTags with
  | nil => simp [hasMatchingTag]
  | cons q qs ih =>
    rw [hasMatchingTag]
    by_cases h : hasMatchingTagInner caseTable q challengeTags = true
    · rw [if_pos h]
      obtain ⟨tag, ht, hc⟩ := (hasMatchingTagInner_iff _ _ _).1 h
      simp only [true_iff]
      exact ⟨tag, ht, q, List.mem_cons_self _ _, hc⟩
    · rw [if_neg h, ih]
      constructor
      · rintro ⟨tag, ht, q', hq', hc⟩
        exact ⟨tag, ht, q', List.mem_cons_of_mem _ hq', hc⟩
      · rintro ⟨tag, ht, q', hq', hc⟩
        rcases List.mem_cons.1 hq' with e | e
        · exact absurd ((hasMatchingTagInner_iff _ _ _).2 ⟨tag, ht, e ▸ hc⟩) h
        · exact ⟨tag, ht, q', e, hc⟩

theorem inputMatchesTags_iff (caseTable : Char → Char) (searchTerm : String)
    (tags : List String) :
    inputMatchesTags caseTable searchTerm tags = true ↔
      ∃ tag ∈ tags, searchTerm.data <:+: (ToLower caseTable tag).data := by
  induction tags with
  | nil => simp [inputMatchesTags]
  | cons t ts ih =>
    rw [inputMatchesTags]
    by_cases h : Contains (ToLower caseTable t) searchTerm = true
    · rw [if_pos h]
      simp only [List.mem_cons, exists_eq_or_imp, true_iff]
      exact Or.inl ((Contains_iff _ _).1 h)
    · rw [if_neg h, ih]
      simp only [List.mem_cons, exists_eq_or_imp]
      rw [Contains_iff] at h
      exact ⟨fun h' => Or.inr h', fun h' => h'.resolve_left h⟩

theorem foldl_append_if {α : Type} (p : α → Bool) :
    ∀ (l init : List α),
      l.foldl (fun results x => if p x = true then results ++ [x] else results) init =
        init ++ l.filter p := by
  intro l
  induction l with
  | nil => intro init; simp
  | cons x xs ih =>
    intro init
    rw [List.foldl_cons, ih]
    by_cases h : p x = true
    · rw [if_pos h, List.filter_cons_of_pos h]; simp
    · rw [if_neg h, List.filter_cons_of_neg h]

/-- Claim C6: `filterChallengesByTags` returns exactly the input results, in
input order, that have a tag whose lower-cased form contains the lower-cased
form of some query tag; `"WEB"` matches the query `"web"`, `"web"` matches the
query `"WEB"`, and a record without tags never matches. -/
theorem filterChallengesByTags_eq_filter (caseTable : Char → Char)
    (allChallenges : List ChallengeResult) (searchTags : List String) :
    filterChallengesByTags caseTable allChallenges searchTags =
        allChallenges.filter (fun challenge => decide (∃ tag ∈ challenge.Tags, ∃ q ∈ searchTags,
          (ToLower caseTable q).data <:+: (ToLower caseTable tag).data)) ∧
      (∀ c : ChallengeResult, c.Tags = ["WEB"] →
        filterChallengesByTags caseTable [c] ["web"] = [c]) ∧
      (∀ c : ChallengeResult, c.Tags = ["web"] →
        filterChallengesByTags caseTable [c] ["WEB"] = [c]) ∧
      (∀ c : ChallengeResult, c.Tags = [] →
        filterChallengesByTags caseTable [c] searchTags = []) := by
  have main : ∀ (cs : List ChallengeResult) (tags : List String),
      filterChallengesByTags caseTable cs tags =
        cs.filter (fun challenge => decide (∃ tag ∈ challenge.Tags, ∃ q ∈ tags,
          (ToLower caseTable q).data <:+: (ToLower caseTable tag).data)) := by
    intro cs tags
    unfold filterChallengesByTags
    rw [foldl_append_if, List.nil_append]
    apply List.filter_congr
    intro c _
    rw [Bool.eq_iff_iff, hasMatchingTag_iff]
    simp
  have low1 : ToLower caseTable "WEB" = "web" := by rfl
  have low2 : ToLower caseTable "web" = "web" := by rfl
  refine ⟨main _ _, fun c hc => ?_, fun c hc => ?_, fun c hc => ?_⟩
  · rw [main, List.filter_cons_of_pos, List.filter_nil]
    simp [hc, low1, low2]
  · rw [main, List.filter_cons_of_pos, List.filter_nil]
    simp [hc, low1, low2]
  · rw [main, List.filter_cons_of_neg, List.filter_nil]
    simp [hc]

/-- Claim C7, as amended: for a non-empty query `filterChallengesByInput` returns
exactly the input results, in input order, that have a tag whose lower-cased form
contains the lower-cased form of the query with its leading and trailing white
space trimmed. -/
theorem filterChallengesByInput_eq_filter (caseTable : Char → Char)
    (allChallenges : List ChallengeResult) (input : String) (h : input ≠ "") :
    filterChallengesByInput caseTable allChallenges input =
      allChallenges.filter (fun challenge => decide (∃ tag ∈ challenge.Tags,
        (ToLower caseTable (TrimSpace input)).data <:+: (ToLower caseTable tag).data)) := by
  unfold filterChallengesByInput
  rw [if_neg h]
  dsimp only
  rw [foldl_append_if, List.nil_append]
  apply List.filter_congr
  intro c _
  rw [Bool.eq_iff_iff, inputMatchesTags_iff]
  simp

/-- Witness for claim C7: the query `" web"`, which is trimmed to `"web"`. -/
theorem filterChallengesByInput_eq_filter_witness :
    (" web" : String) ≠ "" ∧
      filterChallengesByInput (fun c => c) [⟨"n", ["web"], "p", ""⟩] " web" =
        [(⟨"n", ["web"], "p", ""⟩ : ChallengeResult)].filter
          (fun challenge => decide (∃ tag ∈ challenge.Tags,
            (ToLower (fun c => c) (TrimSpace " web")).data <:+:
              (ToLower (fun c => c) tag).data)) :=
  ⟨by decide,
    filterChallengesByInput_eq_filter (fun c => c) [⟨"n", ["web"], "p", ""⟩] " web" (by decide)⟩

/-- Counterexample to claim C7: the query `" web"` selects a record tagged
`"web"`, although no tag of the record contains `" web"` itself. -/
theorem filterChallengesByInput_untrimmed_counterexample :
    filterChallengesByInput (fun c => c) [⟨"n", ["web"], "p", ""⟩] " web" =
        [⟨"n", ["web"], "p", ""⟩] ∧
      [(⟨"n", ["web"], "p", ""⟩ : ChallengeResult)].filter
          (fun challenge => decide (∃ tag ∈ challenge.Tags,
            (ToLower (fun c => c) " web").data <:+: (ToLower (fun c => c) tag).data)) = [] := by
  decide

/-- Claim C8: with no query tags `filterChallengesByTags` returns the empty
sequence for every list of results, and `hasMatchingTag` is false for every tag
list. -/
theorem filterChallengesByTags_nil (caseTable : Char → Char)
    (allChallenges : List ChallengeResult) (challengeTags : List String) :
    filterChallengesByTags caseTable allChallenges [] = [] ∧
      hasMatchingTag caseTable challengeTags [] = false := by
  refine ⟨?_, rfl⟩
  unfold filterChallengesByTags
  rw [foldl_append_if, List.nil_append, List.filter_eq_nil_iff]
  intro c _
  simp [hasMatchingTag]

/-- Claim C9: with the empty string `filterChallengesByInput` returns its input
list unchanged. -/
theorem filterChallengesByInput_empty (caseTable : Char → Char)
    (allChallenges : List ChallengeResult) :
    filterChallengesByInput caseTable allChallenges "" = allChallenges := by
  unfold filterChallengesByInput
  rw [if_pos rfl]

/-! ## Interactive search loop (`interactiveSearch`) -/

theorem stepEscape_ok (s : SearchState) (second : ReadResult)
    (h : 0 ≤ s.cursorPos ∧ s.cursorPos ≤ s.input.length) : OutcomeOk (stepEscape s second) := by
  unfold stepEscape
  split
  · exact h
  · split
    · split
      · split
        · split
          · simp only [OutcomeOk]; omega
          · exact h
        · split
          · split
            · simp only [OutcomeOk]; omega
            · exact h
          · exact h
      · exact h
    · exact h

theorem stepBackspace_ok (s : SearchState)
    (h : 0 ≤ s.cursorPos ∧ s.cursorPos ≤ s.input.length) : OutcomeOk (stepBackspace s) := by
  unfold stepBackspace
  split
  · rename_i hc
    have h1 : sliceTo s.input (s.cursorPos - 1) = some (s.input.take (s.cursorPos - 1).toNat) := by
      unfold sliceTo
      rw [if_pos (by omega)]
    have h2 : sliceFrom s.input s.cursorPos = some (s.input.drop s.cursorPos.toNat) := by
      unfold sliceFrom
      rw [if_pos (by omega)]
    rw [h1, h2]
    simp only [OutcomeOk, List.length_append, List.length_take, List.length_drop]
    omega
  · exact h

theorem stepEnter_ok (caseTable : Char → Char) (allChallenges : List ChallengeResult)
    (s : SearchState) (h : 0 ≤ s.cursorPos ∧ s.cursorPos ≤ s.input.length) :
    OutcomeOk (stepEnter caseTable allChallenges s) := by
  unfold stepEnter
  split
  · trivial
  · exact h

theorem stepDefault_ok (s : SearchState) (char : Nat)
    (h : 0 ≤ s.cursorPos ∧ s.cursorPos ≤ s.input.length) : OutcomeOk (stepDefault s char) := by
  unfold stepDefault
  split
  · have h1 : sliceTo s.input s.cursorPos = some (s.input.take s.cursorPos.toNat) := by
      unfold sliceTo
      rw [if_pos (by omega)]
    have h2 : sliceFrom s.input s.cursorPos = some (s.input.drop s.cursorPos.toNat) := by
      unfold sliceFrom
      rw [if_pos (by omega)]
    rw [h1, h2]
    simp only [OutcomeOk, List.length_append, List.length_take, List.length_drop,
      List.length_cons]
    omega
  · exact h

theorem step_ok (caseTable : Char → Char) (allChallenges : List ChallengeResult)
    (s : SearchState) (e : Event) (h : 0 ≤ s.cursorPos ∧ s.cursorPos ≤ s.input.length) :
    OutcomeOk (step caseTable allChallenges s e) := by
  unfold step
  split
  · trivial
  · split
    · split
      · trivial
      · split
        · exact stepEscape_ok s _ h
        · split
          · exact stepBackspace_ok s h
          · split
            · exact stepEnter_ok caseTable allChallenges s h
            · exact stepDefault_ok s _ h
    · exact h

theorem run_ok (caseTable : Char → Char) (allChallenges : List ChallengeResult) :
    ∀ (events : List Event) (s : SearchState),
      0 ≤ s.cursorPos ∧ s.cursorPos ≤ s.input.length →
      OutcomeOk (run caseTable allChallenges s events) := by
  intro events
  induction events with
  | nil => intro s h; exact h
  | cons e es ih =>
    intro s h
    have hs := step_ok caseTable allChallenges s e h
    rw [run]
    split
    · rename_i s' heq
      rw [heq] at hs
      exact ih s' hs
    · rename_i o hne
      exact hs

/-- Claim C10 (cursor invariant): from the initial state, after every finite
sequence of loop passes the loop has either stopped or is in a state with
`0 ≤ cursorPos ≤ len(input)`, and no slice expression was out of range. -/
theorem run_cursor_invariant (caseTable : Char → Char) (allChallenges : List ChallengeResult)
    (events : List Event) :
    match run caseTable allChallenges initialState events with
    | Outcome.next s => 0 ≤ s.cursorPos ∧ s.cursorPos ≤ s.input.length
    | Outcome.indexOutOfRange => False
    | _ => True := by
  have h := run_ok caseTable allChallenges events initialState
    (by simp [initialState])
  unfold OutcomeOk at h
  exact h

theorem step_printable (caseTable : Char → Char) (allChallenges : List ChallengeResult)
    (s : SearchState) (char : Nat) (second : ReadResult) (h1 : 32 ≤ char) (h2 : char ≤ 126)
    (h : 0 ≤ s.cursorPos ∧ s.cursorPos ≤ s.input.length) :
    step caseTable allChallenges s ⟨ReadResult.bytes [char], second⟩ =
      Outcome.next ⟨s.input.take s.cursorPos.toNat ++
        (Char.ofNat char :: s.input.drop s.cursorPos.toNat), s.cursorPos + 1⟩ := by
  unfold step
  simp only [List.take_succ_cons, List.take_zero]
  rw [if_neg (by omega), if_neg (by omega), if_neg (by omega), if_neg (by omega)]
  unfold stepDefault
  rw [if_pos ⟨h1, h2⟩]
  have e1 : sliceTo s.input s.cursorPos = some (s.input.take s.cursorPos.toNat) := by
    unfold sliceTo
    rw [if_pos (by omega)]
  have e2 : sliceFrom s.input s.cursorPos = some (s.input.drop s.cursorPos.toNat) := by
    unfold sliceFrom
    rw [if_pos (by omega)]
  rw [e1, e2]

theorem run_printable_from (caseTable : Char → Char) (allChallenges : List ChallengeResult) :
    ∀ (events : List Event) (s : SearchState),
      0 ≤ s.cursorPos ∧ s.cursorPos ≤ s.input.length →
      (∀ e ∈ events, ∃ c, e.first = ReadResult.bytes [c] ∧ 32 ≤ c ∧ c ≤ 126) →
      ∃ s', run caseTable allChallenges s events = Outcome.next s' ∧
        s'.cursorPos = s.cursorPos + events.length ∧
        s'.input.length = s.input.length + events.length := by
  intro events
  induction events with
  | nil => intro s _ _; exact ⟨s, rfl, by simp, by simp⟩
  | cons e es ih =>
    intro s hs he
    obtain ⟨c, hc, h1, h2⟩ := he e (List.mem_cons_self _ _)
    have hstep := step_printable caseTable allChallenges s c e.second h1 h2 hs
    have hev : e = ⟨ReadResult.bytes [c], e.second⟩ := by
      cases e
      simp only [Event.mk.injEq, and_true]
      exact hc
    rw [← hev] at hstep
    obtain ⟨s', r1, r2, r3⟩ := ih
      ⟨s.input.take s.cursorPos.toNat ++ (Char.ofNat c :: s.input.drop s.cursorPos.toNat),
        s.cursorPos + 1⟩
      (by
        simp only [List.length_append, List.length_take, List.length_cons, List.length_drop]
        omega)
      (fun e' he' => he e' (List.mem_cons_of_mem _ he'))
    refine ⟨s', ?_, ?_, ?_⟩
    · rw [run, hstep]
      exact r1
    · rw [r2]
      simp only [List.length_cons]
      push_cast
      omega
    · rw [r3]
      simp only [List.length_append, List.length_take, List.length_cons, List.length_drop]
      omega

/-- Claim C11: the loop starts with an empty buffer and cursor 0, and after `k`
passes that each read one printable byte (32..126) the cursor position is `k`
and the buffer has length `k`. -/
theorem run_printable_cursor (caseTable : Char → Char) (allChallenges : List ChallengeResult)
    (events : List Event)
    (h : ∀ e ∈ events, ∃ c, e.first = ReadResult.bytes [c] ∧ 32 ≤ c ∧ c ≤ 126) :
    initialState.input = [] ∧ initialState.cursorPos = 0 ∧
      ∃ s, run caseTable allChallenges initialState events = Outcome.next s ∧
        s.cursorPos = events.length ∧ s.input.length = events.length := by
  obtain ⟨s, r1, r2, r3⟩ := run_printable_from caseTable allChallenges events initialState
    (by simp [initialState]) h
  refine ⟨rfl, rfl, s, r1, ?_, ?_⟩
  · rw [r2]; simp [initialState]
  · rw [r3]; simp [initialState]

/-- Witness for claim C11: the three bytes of `web`. -/
theorem run_printable_cursor_witness :
    run (fun c => c) []  initialState
        [⟨ReadResult.bytes [119], ReadResult.err⟩, ⟨ReadResult.bytes [101], ReadResult.err⟩,
          ⟨ReadResult.bytes [98], ReadResult.err⟩] = Outcome.next ⟨['w', 'e', 'b'], 3⟩ ∧
      (initialState.input = [] ∧ initialState.cursorPos = 0 ∧
        ∃ s, run (fun c => c) [] initialState
            [⟨ReadResult.bytes [119], ReadResult.err⟩, ⟨ReadResult.bytes [101], ReadResult.err⟩,
              ⟨ReadResult.bytes [98], ReadResult.err⟩] = Outcome.next s ∧
          s.cursorPos = ([⟨ReadResult.bytes [119], ReadResult.err⟩,
            ⟨ReadResult.bytes [101], ReadResult.err⟩,
            ⟨ReadResult.bytes [98], ReadResult.err⟩] : List Event).length ∧
          s.input.length = ([⟨ReadResult.bytes [119], ReadResult.err⟩,
            ⟨ReadResult.bytes [101], ReadResult.err⟩,
            ⟨ReadResult.bytes [98], ReadResult.err⟩] : List Event).length) :=
  ⟨by decide,
    run_printable_cursor (fun c => c) [] _ (by
      intro e he
      simp only [List.mem_cons, List.mem_singleton, List.not_mem_nil, or_false] at he
      rcases he with rfl | rfl | rfl
      · exact ⟨119, rfl, by decide, by decide⟩
      · exact ⟨101, rfl, by decide, by decide⟩
      · exact ⟨98, rfl, by decide, by decide⟩)⟩

/-- Claim C12: a backspace or delete byte (127 or 8), in a state with
`0 ≤ cursorPos ≤ len(input)`, removes exactly the character before the cursor and
moves the cursor one to the left; at cursor 0 it changes nothing, also when the
buffer is not empty. -/
theorem step_backspace (caseTable : Char → Char) (allChallenges : List ChallengeResult)
    (s : SearchState) (second : ReadResult) (char : Nat) (hc : char = 127 ∨ char = 8)
    (h : 0 ≤ s.cursorPos ∧ s.cursorPos ≤ s.input.length) :
    (0 < s.cursorPos →
      step caseTable allChallenges s ⟨ReadResult.bytes [char], second⟩ =
        Outcome.next ⟨s.input.eraseIdx (s.cursorPos - 1).toNat, s.cursorPos - 1⟩) ∧
    (s.cursorPos = 0 →
      step caseTable allChallenges s ⟨ReadResult.bytes [char], second⟩ = Outcome.next s) := by
  have hstep : step caseTable allChallenges s ⟨ReadResult.bytes [char], second⟩ =
      stepBackspace s := by
    unfold step
    simp only [List.take_succ_cons, List.take_zero]
    rw [if_neg (by omega), if_neg (by omega), if_pos hc]
  rw [hstep]
  unfold stepBackspace
  constructor
  · intro hpos
    have hlen : s.input.length > 0 := by
      have : (0 : Int) < s.input.length := by omega
      exact_mod_cast this
    rw [if_pos ⟨hpos, hlen⟩]
    have e1 : sliceTo s.input (s.cursorPos - 1) =
        some (s.input.take (s.cursorPos - 1).toNat) := by
      unfold sliceTo
      rw [if_pos (by omega)]
    have e2 : sliceFrom s.input s.cursorPos = some (s.input.drop s.cursorPos.toNat) := by
      unfold sliceFrom
      rw [if_pos (by omega)]
    rw [e1, e2]
    have e3 : s.cursorPos.toNat = (s.cursorPos - 1).toNat + 1 := by omega
    simp only [Outcome.next.injEq, SearchState.mk.injEq, and_true]
    rw [e3, List.eraseIdx_eq_take_drop_succ]
  · intro h0
    rw [if_neg (by omega)]

/-- Witness for claim C12: delete (127) with the cursor after `b` in `abc`. -/
theorem step_backspace_witness :
    (127 = 127 ∨ 127 = 8) ∧
    ((0 : Int) ≤ 2 ∧ (2 : Int) ≤ (['a', 'b', 'c'] : List Char).length) ∧
    step (fun c => c) [] ⟨['a', 'b', 'c'], 2⟩ ⟨ReadResult.bytes [127], ReadResult.err⟩ =
      Outcome.next ⟨['a', 'c'], 1⟩ ∧
    step (fun c => c) [] ⟨['a', 'b', 'c'], 0⟩ ⟨ReadResult.bytes [127], ReadResult.err⟩ =
      Outcome.next ⟨['a', 'b', 'c'], 0⟩ :=
  ⟨by decide, by decide,
    (step_backspace (fun c => c) [] ⟨['a', 'b', 'c'], 2⟩ ReadResult.err 127 (by decide)
      (by decide)).1 (by decide),
    (step_backspace (fun c => c) [] ⟨['a', 'b', 'c'], 0⟩ ReadResult.err 127 (by decide)
      (by decide)).2 rfl⟩

/-- Claim C15: on enter (byte 13), when `filterChallengesByInput` of the buffer is
not empty the loop terminates with its first element as the selection; when it
is empty the loop continues with buffer and cursor unchanged. -/
theorem run_enter (caseTable : Char → Char) (allChallenges : List ChallengeResult)
    (s : SearchState) (second : ReadResult) (events : List Event) :
    (∀ selected rest,
      filterChallengesByInput caseTable allChallenges (String.mk s.input) = selected :: rest →
      step caseTable allChallenges s ⟨ReadResult.bytes [13], second⟩ =
          Outcome.selected selected ∧
        run caseTable allChallenges s (⟨ReadResult.bytes [13], second⟩ :: events) =
          Outcome.selected selected) ∧
    (filterChallengesByInput caseTable allChallenges (String.mk s.input) = [] →
      step caseTable allChallenges s ⟨ReadResult.bytes [13], second⟩ = Outcome.next s ∧
        run caseTable allChallenges s (⟨ReadResult.bytes [13], second⟩ :: events) =
          run caseTable allChallenges s events) := by
  have hstep : step caseTable allChallenges s ⟨ReadResult.bytes [13], second⟩ =
      stepEnter caseTable allChallenges s := by
    unfold step
    simp only [List.take_succ_cons, List.take_zero]
    rw [if_neg (by omega), if_neg (by omega), if_neg (by omega)]
    exact if_pos trivial
  constructor
  · intro selected rest hf
    have e : step caseTable allChallenges s ⟨ReadResult.bytes [13], second⟩ =
        Outcome.selected selected := by
      rw [hstep]
      unfold stepEnter
      rw [hf]
    exact ⟨e, by rw [run, e]⟩
  · intro hf
    have e : step caseTable allChallenges s ⟨ReadResult.bytes [13], second⟩ =
        Outcome.next s := by
      rw [hstep]
      unfold stepEnter
      rw [hf]
    exact ⟨e, by rw [run, e]⟩

/-- Witness for claim C15: enter with the buffer `w` on a corpus of one record
tagged `web` selects that record; with the buffer `x` the loop continues. -/
theorem run_enter_witness :
    run (fun c => c) [⟨"n", ["web"], "p", ""⟩] ⟨['w'], 1⟩
        [⟨ReadResult.bytes [13], ReadResult.err⟩, ⟨ReadResult.bytes [97], ReadResult.err⟩] =
      Outcome.selected ⟨"n", ["web"], "p", ""⟩ ∧
    run (fun c => c) [⟨"n", ["web"], "p", ""⟩] ⟨['x'], 1⟩
        [⟨ReadResult.bytes [13], ReadResult.err⟩] =
      run (fun c => c) [⟨"n", ["web"], "p", ""⟩] ⟨['x'], 1⟩ [] :=
  ⟨((run_enter (fun c => c) [⟨"n", ["web"], "p", ""⟩] ⟨['w'], 1⟩ ReadResult.err
      [⟨ReadResult.bytes [97], ReadResult.err⟩]).1 ⟨"n", ["web"], "p", ""⟩ [] (by decide)).2,
    ((run_enter (fun c => c) [⟨"n", ["web"], "p", ""⟩] ⟨['x'], 1⟩ ReadResult.err []).2
      (by decide)).2⟩

/-! ## Branch file lister (`listChallengeFilesInBranch`) -/

theorem challengeFilesOfLines_eq (genre : String) (lines : List String) :
    challengeFilesOfLines genre lines =
      (lines.filter (fun line => HasSuffix line "challenge.yml")).map
        (fun line => genre ++ "/" ++ line) := by
  unfold challengeFilesOfLines
  have key : ∀ (l : List String) (init : List String),
      l.foldl (fun challengeFiles line =>
          if HasSuffix line "challenge.yml" = true then challengeFiles ++ [genre ++ "/" ++ line]
          else challengeFiles) init =
        init ++ (l.filter (fun line => HasSuffix line "challenge.yml")).map
          (fun line => genre ++ "/" ++ line) := by
    intro l
    induction l with
    | nil => intro init; simp
    | cons x xs ih =>
      intro init
      rw [List.foldl_cons, ih]
      by_cases h : HasSuffix x "challenge.yml" = true
      · rw [if_pos h]; simp [List.filter_cons, h]
      · rw [if_neg h]; simp [List.filter_cons, h]
  rw [key, List.nil_append]

/-- Claim C13, on the failing input: the tree listing of genre `web` holds
`a/challenge.yml` and `b/mychallenge.yml`; the lister keeps both, although the
file name of the second, `mychallenge.yml`, is not `challenge.yml`. -/
theorem listChallengeFilesInBranch_keeps_suffix_match :
    listChallengeFilesInBranch (fun _ _ => some "a/challenge.yml\nb/mychallenge.yml\n")
        "main" "web" = some ["web/a/challenge.yml", "web/b/mychallenge.yml"] ∧
      fileName "b/mychallenge.yml" = "mychallenge.yml" ∧
      fileName "b/mychallenge.yml" ≠ "challenge.yml" := by
  decide

/-! ## Discovery order of `LoadChallenges` -/

theorem foldl_processCandidate_results (git : Git) :
    ∀ (cs : List (String × String)) (st : LoadState),
      (cs.foldl (processCandidate git) st).2 =
        st.2 ++ ((keepFirstByPath cs).filter (fun c => decide (c.2 ∉ st.1))).filterMap
          (fun c => loadResult git c.1 c.2) := by
  intro cs
  induction cs with
  | nil => intro st; simp [keepFirstByPath]
  | cons c cs ih =>
    intro st
    rw [List.foldl_cons, ih, processCandidate_eq, keepFirstByPath]
    by_cases h : c.2 ∈ st.1
    · rw [if_pos h, List.filter_cons_of_neg (by simpa using h), List.filter_filter]
      congr 2
      apply List.filter_congr
      intro d _
      by_cases hd : d.2 = c.2
      · simp [hd, h]
      · simp [hd]
    · rw [if_neg h, List.filter_cons_of_pos (by simpa using h), List.filter_filter]
      have e : (keepFirstByPath cs).filter (fun d => decide (d.2 ∉ c.2 :: st.1)) =
          (keepFirstByPath cs).filter
            (fun a => decide (a.2 ∉ st.1) && decide (a.2 ≠ c.2)) := by
        apply List.filter_congr
        intro d _
        by_cases hd : d.2 = c.2
        · simp [hd]
        · simp [hd]
      dsimp only
      rw [e, List.filterMap_cons]
      cases hl : loadResult git c.1 c.2 with
      | none => simp
      | some r => simp

/-- Claim C14: `LoadChallenges` returns its results in discovery order: branches
in priority-sorted order, genres in the given order, files in listing order,
only the first occurrence of each path and of these only the ones that are
retrieved and parsed; nothing is sorted again. -/
theorem LoadChallenges_discovery_order (git : Git) (currentBranch : String)
    (genres : List String) :
    LoadChallenges git currentBranch genres =
      git.listLocalBranches.map (fun branches =>
        discoveryOrder git genres (sortBranchesByPriority currentBranch branches)) := by
  cases hb : git.listLocalBranches with
  | none => simp [LoadChallenges, hb]
  | some branches =>
    rw [LoadChallenges_eq git currentBranch genres branches hb, Option.map_some']
    rw [foldl_processCandidate_results]
    unfold discoveryOrder
    simp
